import Mathlib

/-!
# Verification of `conda/gateways/disk/delete.py`

A shallow embedding of the best-effort recursive deletion module.

The filesystem is a finite association list from absolute paths (lists of
name components) to node kinds (regular file, directory, symlink).  All
fallible OS primitives (`unlink`, `rename`, `rmdir`, the bulk tree-deletion
primitive `rmtree`, `make_writable`) run in a state monad `M` that carries

* the filesystem,
* a fault script: one queue of optional injected errors per primitive, so a
  theorem can quantify over every pattern of OS-level failure the
  environment may produce, and
* an event trace recording which primitive was invoked on which path, used
  to state claims about dispatch and tiering observationally.

Python exception semantics are modelled precisely: `Except Err` with
`Err.os errno` standing for `OSError`/`IOError` (the only exceptions caught
by `except (OSError, IOError)`) and `Err.other` standing for any non-OS
exception (such as `subprocess.CalledProcessError` raised by the
subprocess-based `rmtree`), which those handlers do not catch.  A bare
`except:` catches both.  `try/finally` with a `return` inside the `finally`
block swallows an in-flight exception; a `finally` that does not `return`
lets it propagate.  Both behaviours are reproduced literally in `rm_rf`.
-/

set_option autoImplicit false

namespace CondaDelete

/-- errno of "no such file or directory". -/
def ENOENT : Nat := 2
/-- errno of "operation not permitted". -/
def EPERM : Nat := 1
/-- errno of "permission denied". -/
def EACCES : Nat := 13
/-- errno of "is a directory" (unlink applied to a directory). -/
def EISDIR : Nat := 21
/-- errno of "not a directory" (rmdir applied to a non-directory). -/
def ENOTDIR : Nat := 20
/-- errno of "directory not empty". -/
def ENOTEMPTY : Nat := 39
/-- errno of "device or resource busy" (rmdir applied to the root). -/
def EBUSY : Nat := 16

/-- An absolute path, as its list of name components ("/a/b" is `["a","b"]`;
the filesystem root is `[]`). -/
abbrev Path := List String

/-- Kind of a filesystem node.  `link b` is a symlink; `b` records whether
`os.path.isdir` (which follows links) answers true on it, so `link false`
covers both links to files and broken links. -/
inductive NodeKind where
  | file : NodeKind
  | dir : NodeKind
  | link : Bool → NodeKind
deriving Repr, DecidableEq

/-- The filesystem: a finite association list from paths to node kinds.
Lookup takes the first matching entry. -/
abbrev FS := List (Path × NodeKind)

/-- A Python exception.  `os errno` is an `OSError`/`IOError` carrying its
errno; `other` is any exception that is not an `OSError` (for example the
`CalledProcessError` that `check_call` raises when the `rd`/`rsync`
subprocess of `rmtree` exits nonzero). -/
inductive Err where
  | os : Nat → Err
  | other : Err
deriving Repr, DecidableEq

/-- The errno of an exception, when it is an OS error. -/
def errnoOf : Err → Option Nat
  | .os n => some n
  | .other => none

/-- Trace events: one per primitive invocation, plus entry markers for the
two deletion strategies `rm_rf` dispatches to. -/
inductive Event where
  | mwEv : Path → Event
  | recMWEv : Path → Event
  | rmtreeEv : Path → Event
  | unlinkEv : Path → Event
  | renameEv : Path → Path → Event
  | rmdirEv : Path → Event
  | popenTrashEv : Path → String → Event
  | callBackoffEv : Path → Event
  | callUnlinkTrashEv : Path → Event
  | logUnlinkFailEv : Path → Event
deriving Repr, DecidableEq

/-- The fault script: for each fallible primitive, a queue of optional
injected errors, consumed one entry per invocation.  `none` (and an
exhausted queue) means the invocation is not faulted and follows its
intrinsic semantics; `some e` means the environment makes it raise `e`
(a lock held by another process, an antivirus scanner, a failing
subprocess, ...). -/
structure Script where
  mwQ : List (Option Err)
  unlinkQ : List (Option Err)
  renameQ : List (Option Err)
  rmdirQ : List (Option Err)
  rmtreeQ : List (Option Err)
  popenQ : List (Option Err)
deriving Repr, DecidableEq

/-- A script with no queued faults at all. -/
def Script.empty : Script := ⟨[], [], [], [], [], []⟩

/-- Full interpreter state: filesystem, fault script, event trace. -/
structure St where
  fs : FS
  sc : Script
  tr : List Event
deriving Repr, DecidableEq

/-- The effect monad: state plus Python-style exceptions. -/
abbrev M (α : Type) := St → Except Err α × St

def M.pure {α : Type} (a : α) : M α := fun st => (.ok a, st)

def M.bind {α β : Type} (m : M α) (f : α → M β) : M β := fun st =>
  match m st with
  | (.ok a, st') => f a st'
  | (.error e, st') => (.error e, st')

instance : Monad M where
  pure := M.pure
  bind := M.bind

/-- `raise e`. -/
def throwM {α : Type} (e : Err) : M α := fun st => (.error e, st)

/-- `try: m except (OSError, IOError) as e: h e` — catches OS errors only;
any other exception keeps propagating. -/
def attemptOs {α : Type} (m : M α) (h : Err → M α) : M α := fun st =>
  match m st with
  | (.error (.os n), st') => h (.os n) st'
  | r => r

/-- `try: m except: h` — a bare except, catching every exception. -/
def attemptAll {α : Type} (m : M α) (h : Err → M α) : M α := fun st =>
  match m st with
  | (.error e, st') => h e st'
  | r => r

def getFs : M FS := fun st => (.ok st.fs, st)

def setFs (fs : FS) : M Unit := fun st => (.ok (), { st with fs := fs })

def emit (ev : Event) : M Unit := fun st => (.ok (), { st with tr := st.tr ++ [ev] })

def popMwQ : M (Option Err) := fun st =>
  match st.sc.mwQ with
  | [] => (.ok none, st)
  | e :: rest => (.ok e, { st with sc := { st.sc with mwQ := rest } })

def popUnlinkQ : M (Option Err) := fun st =>
  match st.sc.unlinkQ with
  | [] => (.ok none, st)
  | e :: rest => (.ok e, { st with sc := { st.sc with unlinkQ := rest } })

def popRenameQ : M (Option Err) := fun st =>
  match st.sc.renameQ with
  | [] => (.ok none, st)
  | e :: rest => (.ok e, { st with sc := { st.sc with renameQ := rest } })

def popRmdirQ : M (Option Err) := fun st =>
  match st.sc.rmdirQ with
  | [] => (.ok none, st)
  | e :: rest => (.ok e, { st with sc := { st.sc with rmdirQ := rest } })

def popRmtreeQ : M (Option Err) := fun st =>
  match st.sc.rmtreeQ with
  | [] => (.ok none, st)
  | e :: rest => (.ok e, { st with sc := { st.sc with rmtreeQ := rest } })

def popPopenQ : M (Option Err) := fun st =>
  match st.sc.popenQ with
  | [] => (.ok none, st)
  | e :: rest => (.ok e, { st with sc := { st.sc with popenQ := rest } })

/-! ## Pure filesystem queries and updates -/

/-- First-match lookup of a path in the filesystem. -/
def lookupFS (fs : FS) (p : Path) : Option NodeKind :=
  match fs with
  | [] => none
  | (q, k) :: rest => if q = p then some k else lookupFS rest p

/-- `os.path.lexists`: the path names some node, symlinks not followed
(true also for broken links). -/
def lexistsFS (fs : FS) (p : Path) : Bool :=
  (lookupFS fs p).isSome

/-- `os.path.isdir`: true for directories and for symlinks whose target is
a directory (`isdir` follows links). -/
def isdirFS (fs : FS) (p : Path) : Bool :=
  match lookupFS fs p with
  | some .dir => true
  | some (.link b) => b
  | _ => false

/-- `os.path.islink`: the node is a symlink. -/
def islinkFS (fs : FS) (p : Path) : Bool :=
  match lookupFS fs p with
  | some (.link _) => true
  | _ => false

/-- Remove every entry stored at exactly path `p`. -/
def erasePath : FS → Path → FS
  | [], _ => []
  | (q, k) :: rest, p =>
    if q = p then erasePath rest p else (q, k) :: erasePath rest p

/-- Remove the whole subtree rooted at `p` (the node itself and every path
extending it). -/
def eraseTree : FS → Path → FS
  | [], _ => []
  | (q, k) :: rest, p =>
    if List.isPrefixOf p q then eraseTree rest p else (q, k) :: eraseTree rest p

/-- Add an entry at path `p` (shadowing any previous entry). -/
def insertPath (fs : FS) (p : Path) (k : NodeKind) : FS :=
  (p, k) :: fs

/-- Keep the first occurrence of each path not yet in `seen`. -/
def dedupAux : List Path → List Path → List Path
  | [], _ => []
  | p :: ps, seen =>
    if seen.contains p then dedupAux ps seen
    else p :: dedupAux ps (p :: seen)

/-- The distinct paths occurring in a list, in first-occurrence order. -/
def dedupPaths (l : List Path) : List Path := dedupAux l []

def pathKeys (fs : FS) : List Path :=
  dedupPaths (fs.map Prod.fst)

/-- `os.listdir p`: the names of the immediate children of `p` recorded in
the filesystem. -/
def listdirFS (fs : FS) (p : Path) : List String :=
  (pathKeys fs).filterMap (fun q =>
    if q.dropLast == p && !(q == p) then some (q.getLastD "") else none)

/-! ## OS primitives

Each primitive first consumes one entry of its fault queue; an injected
error is raised as-is, otherwise the intrinsic semantics apply. -/

/-- Modelled from the spec: `make_writable` lives in
`conda/gateways/disk/permissions.py`, which is not part of the sources;
section 4.1 specifies it: remove the read-only attribute of one entry,
failing silently when the entry no longer exists and propagating other
errors.  Permission bits themselves are not part of the filesystem model,
so a successful call leaves the filesystem unchanged; failures are fault
injections. -/
def make_writable (p : Path) : M Unit := do
  emit (.mwEv p)
  let fs ← getFs
  if lexistsFS fs p then
    match ← popMwQ with
    | some e => throwM e
    | none => pure ()
  else
    pure ()

/-- `os.unlink`: remove a non-directory node. -/
def unlink (p : Path) : M Unit := do
  emit (.unlinkEv p)
  match ← popUnlinkQ with
  | some e => throwM e
  | none =>
    let fs ← getFs
    match lookupFS fs p with
    | none => throwM (.os ENOENT)
    | some .dir => throwM (.os EISDIR)
    | some _ => setFs (erasePath fs p)

/-- `os.rename src dst`.  In this module it is only ever applied to
non-directory nodes (the in-place rename of a file to its `.trash`
sibling), so moving the single entry is faithful. -/
def rename (src dst : Path) : M Unit := do
  emit (.renameEv src dst)
  match ← popRenameQ with
  | some e => throwM e
  | none =>
    let fs ← getFs
    match lookupFS fs src with
    | none => throwM (.os ENOENT)
    | some k => setFs (insertPath (erasePath (erasePath fs dst) src) dst k)

/-- `os.rmdir`: remove an empty directory.  Removing the filesystem root
always fails (EBUSY), matching the OS. -/
def rmdir (p : Path) : M Unit := do
  emit (.rmdirEv p)
  match ← popRmdirQ with
  | some e => throwM e
  | none =>
    let fs ← getFs
    if p = [] then throwM (.os EBUSY)
    else
      match lookupFS fs p with
      | none => throwM (.os ENOENT)
      | some .dir =>
        if (listdirFS fs p).isEmpty then setFs (erasePath fs p)
        else throwM (.os ENOTEMPTY)
      | some _ => throwM (.os ENOTDIR)

/-- The module-local `rmtree`: the bulk tree-deletion primitive (`rd /s /q`
via `check_call` on Windows, the rsync empty-directory mirror trick plus
`rmdir` elsewhere).  The spec treats it as an injectable primitive and
places its literal subprocess form out of scope, so it is modelled as:
remove the whole subtree, with every failure mode (including the non-OS
`CalledProcessError` of a failing subprocess) injected through the fault
script.  It accepts and ignores extra keyword arguments exactly like the
source (`def rmtree(path, *args, **kwargs)`), which is why the `onerror`
callback passed to it downstream is inert. -/
def rmtree (p : Path) : M Unit := do
  emit (.rmtreeEv p)
  match ← popRmtreeQ with
  | some e => throwM e
  | none => do
    let fs ← getFs
    setFs (eraseTree fs p)

/-- The external `rename_trash.bat` helper invoked through `Popen` on
Windows, given the containing directory and the file name; its exit status
is ignored, so the call itself never raises.  A non-faulted run performs
the rename to `<name>.trash` when the source exists; a faulted run does
nothing (and the failure is invisible to the caller). -/
def popenRenameTrash (d : Path) (fn : String) : M Unit := do
  emit (.popenTrashEv d fn)
  match ← popPopenQ with
  | some _ => pure ()
  | none =>
    let fs ← getFs
    match lookupFS fs (d ++ [fn]) with
    | none => pure ()
    | some k => setFs (insertPath (erasePath (erasePath fs (d ++ [fn ++ ".trash"])) (d ++ [fn])) (d ++ [fn ++ ".trash"]) k)

/-! ## Retry wrapper and permission repair -/

/-- Modelled from the spec: the process-wide default retry budget
(`MAX_TRIES`, imported from `conda/gateways/disk/__init__.py`, which is not
part of the sources); section 3 fixes the shared default at 5. -/
def MAX_TRIES : Nat := 5

/-- An error on which the backoff wrapper retries: a transient OS-level
error (momentary permission denial / path briefly locked).  An
operate-on-missing-path error is never retried, and non-OS errors are not
retried either. -/
def isTransientErr : Err → Bool
  | .os n => n == EPERM || n == EACCES
  | .other => false

/-- Modelled from the spec: `exp_backoff_fn` lives in
`conda/gateways/disk/__init__.py`, which is not part of the sources;
section 4.2 specifies it: invoke the operation, retry with exponentially
growing sleeps on transient OS-level errors up to `max_tries` attempts in
total, re-raise anything else immediately, and re-raise the last error when
the attempts are exhausted.  Sleeping has no observable effect in the
model.  Extra keyword arguments (such as the `onerror` callback) are passed
through to the wrapped operation, so they are part of `op` here. -/
def exp_backoff_fn {α : Type} (op : M α) : Nat → M α
  | 0 => op
  | 1 => op
  | n + 2 => fun st =>
    match op st with
    | (.ok a, st') => (.ok a, st')
    | (.error e, st') =>
      if isTransientErr e then exp_backoff_fn op (n + 1) st'
      else (.error e, st')

/-- The distinct paths of the subtree rooted at `p`, the root first. -/
def subtreePaths (fs : FS) (p : Path) : List Path :=
  p :: (pathKeys fs).filter (fun q => List.isPrefixOf p q && !(q == p))

/-- Modelled from the spec: `recursive_make_writable` lives in
`conda/gateways/disk/permissions.py`, which is not part of the sources;
section 4.1 specifies it: apply `make_writable` to the path and, for a
directory, to every entry of its subtree, each call wrapped in the backoff
policy so one stubborn entry does not abort repair of the rest; an entry
that vanished (ENOENT) is skipped, other errors propagate. -/
def recursive_make_writable (p : Path) (max_tries : Nat) : M Unit := do
  emit (.recMWEv p)
  let fs ← getFs
  if isdirFS fs p then
    (subtreePaths fs p).foldr
      (fun q rest => do
        attemptOs (exp_backoff_fn (make_writable q) max_tries)
          (fun e => if errnoOf e = some ENOENT then pure () else throwM e)
        rest)
      (pure ())
  else
    exp_backoff_fn (make_writable p) max_tries

/-! ## `unlink_or_rename_to_trash` -/

/-- `path + ".trash"`: the same location with the reserved suffix appended
to the final name component. -/
def trashName (p : Path) : Path :=
  p.dropLast ++ [p.getLastD "" ++ ".trash"]

/--
```python
def unlink_or_rename_to_trash(path):
    try:
        make_writable(path)
        unlink(path)
    except (OSError, IOError) as e:
        if on_win:
            condabin_dir = join(context.conda_prefix, "condabin")
            trash_script = join(condabin_dir, 'rename_trash.bat')
            _dirname, _fn = split(path)
            p = Popen(['cmd.exe', '/C', trash_script, _dirname, _fn], ...)
            stdout, stderr = p.communicate()
        else:
            rename(path, path + ".trash")
```
`win` is the platform capability flag (`on_win`); locating the helper
through `context.conda_prefix` is absorbed into the `popenRenameTrash`
primitive. -/
def unlink_or_rename_to_trash (win : Bool) (p : Path) : M Unit := do
  emit (.callUnlinkTrashEv p)
  attemptOs
    (do
      make_writable p
      unlink p)
    (fun _e =>
      if win then popenRenameTrash p.dropLast (p.getLastD "")
      else rename p (trashName p))

/-! ## `remove_empty_parent_paths` -/

/-- The `while isdir(parent_path) and not listdir(parent_path)` loop of
`remove_empty_parent_paths`, walking upward through `dirname`.  The loop is
driven by the fuel `n`, always instantiated to the length of the current
path (`removeParentsGo` below), so the fuel never runs out before the
filesystem root: there `dirname` is a fixed point, and `rmdir` of the root
always raises EBUSY, so the loop always stops by then. -/
def removeParentsGoN : Nat → Path → M Unit
  | 0, q => do
    let fs ← getFs
    if isdirFS fs q && (listdirFS fs q).isEmpty then rmdir q
    else pure ()
  | n + 1, q => do
    let fs ← getFs
    if isdirFS fs q && (listdirFS fs q).isEmpty then do
      rmdir q
      removeParentsGoN n q.dropLast
    else pure ()

/-- The `while` loop of `remove_empty_parent_paths` on path `q`. -/
def removeParentsGo (q : Path) : M Unit :=
  removeParentsGoN q.length q

/--
```python
def remove_empty_parent_paths(path):
    parent_path = dirname(path)
    while(isdir(parent_path) and not listdir(parent_path)):
        rmdir(parent_path)
        parent_path = dirname(parent_path)
```
-/
def remove_empty_parent_paths (p : Path) : M Unit :=
  removeParentsGo p.dropLast

/-! ## The bottom-up walk of `backoff_rmdir` -/

/-- A directory visited by `os.walk(root)`: `root` and every path below it
are real directories all the way down from `root` (symlinked directories
are listed but never descended into, `followlinks` being false). -/
def visitedDir (fs : FS) (root p : Path) : Bool :=
  List.isPrefixOf root p &&
    (List.range (p.length + 1)).all
      (fun i => decide (i < root.length) || decide (lookupFS fs (p.take i) = some .dir))

/-- The names a walk of `v` reports: directory side (`dirs`) when `l` is
true — real subdirectories and symlinks to directories — and file side
(`files`) when `l` is false — everything else. -/
def childNames (fs : FS) (v : Path) (dirSide : Bool) : List String :=
  (pathKeys fs).filterMap (fun q =>
    if q.dropLast == v && !(q == v) && (isdirFS fs q == dirSide) then
      some (q.getLastD "")
    else none)

/-- One `(root, dirs, files)` triple of `os.walk`. -/
def walkTriple (fs : FS) (v : Path) : Path × List String × List String :=
  (v, childNames fs v true, childNames fs v false)

/-- The visited directories of `os.walk(root)`, in filesystem order. -/
def walkDirs (fs : FS) (root : Path) : List Path :=
  (pathKeys fs).filter (visitedDir fs root)

/-- Order a set of directories by depth: children before parents when
`bottomUp` (as `os.walk(..., topdown=False)` yields them), parents first
otherwise. -/
def orderByDepth (bottomUp : Bool) (ps : List Path) : List Path :=
  let maxL := ps.foldr (fun p m => max p.length m) 0
  let buckets := (List.range (maxL + 1)).map (fun d => ps.filter (fun p => p.length == d))
  (if bottomUp then buckets.reverse else buckets).flatten

/-- The full triple sequence of `os.walk(root, topdown=not bottomUp)`.
The walk is computed as a snapshot of the filesystem at the moment the
iteration starts: the deletions the loop bodies perform only ever touch
listings that the lazy generator has already produced, so the snapshot
coincides with Python's lazy walk. -/
def walkTriples (fs : FS) (root : Path) (bottomUp : Bool) :
    List (Path × List String × List String) :=
  (orderByDepth bottomUp (walkDirs fs root)).map (walkTriple fs)

/-- Run an action on each element of a list in order. -/
def mIter {α : Type} : List α → (α → M Unit) → M Unit
  | [], _ => M.pure ()
  | x :: xs, f => do
    f x
    mIter xs f

/-- The inner `_rmdir` of `backoff_rmdir`:
```python
def _rmdir(path):
    try:
        recursive_make_writable(path)
        exp_backoff_fn(rmtree, path, onerror=retry, max_tries=max_tries)
    except (IOError, OSError) as e:
        if e.errno == ENOENT:
            log.trace("no such file or directory: %s", path)
        else:
            raise
```
The `onerror=retry` keyword is forwarded by `exp_backoff_fn` to `rmtree`,
whose `*args, **kwargs` ignore it, so the `retry` repair callback defined
in the source is dead code and does not appear in the model. -/
def _rmdir (p : Path) (max_tries : Nat) : M Unit :=
  attemptOs
    (do
      recursive_make_writable p max_tries
      exp_backoff_fn (rmtree p) max_tries)
    (fun e => if errnoOf e = some ENOENT then pure () else throwM e)

/-- The body of the walk loop for one `(root, dirs, files)` triple:
```python
for file in files:
    unlink_or_rename_to_trash(join(root, file))
for dir in dirs:
    _rmdir(join(root, dir))
```
-/
def processTriple (win : Bool) (max_tries : Nat)
    (t : Path × List String × List String) : M Unit := do
  mIter t.2.2 (fun f => unlink_or_rename_to_trash win (t.1 ++ [f]))
  mIter t.2.1 (fun d => _rmdir (t.1 ++ [d]) max_tries)

/-- Everything `backoff_rmdir` does after the first (bulk) tier: the
bottom-up per-entry walk, then the final removal of the directory itself. -/
def backoffWalkPhase (win : Bool) (dirpath : Path) (max_tries : Nat) : M Unit := do
  let fs ← getFs
  mIter (walkTriples fs dirpath true) (processTriple win max_tries)
  _rmdir dirpath max_tries

/--
```python
def backoff_rmdir(dirpath, max_tries=MAX_TRIES):
    if not isdir(dirpath):
        return
    ...
    try:
        rmtree(dirpath)
    except:
        pass
    for root, dirs, files in walk(dirpath, topdown=False):
        for file in files:
            unlink_or_rename_to_trash(join(root, file))
        for dir in dirs:
            _rmdir(join(root, dir))
    _rmdir(dirpath)
```
The first tier is a bare `rmtree(dirpath)` under a bare `except: pass`. -/
def backoff_rmdir (win : Bool) (dirpath : Path) (max_tries : Nat) : M Unit := do
  emit (.callBackoffEv dirpath)
  let fs ← getFs
  if !(isdirFS fs dirpath) then pure ()
  else do
    attemptAll (rmtree dirpath) (fun _ => pure ())
    backoffWalkPhase win dirpath max_tries

/-! ## `rm_rf` -/

/-- A path argument as given by the caller: either already absolute or
relative to the current working directory. -/
structure RawPath where
  absolute : Bool
  comps : List String
deriving Repr, DecidableEq

/-- Modelled from the spec: `os.path.abspath` (standard library) —
normalize the argument to absolute form by resolving relative paths
against the working directory ("." and ".." components are not part of the
path model). -/
def abspath (cwd : Path) (p : RawPath) : Path :=
  if p.absolute then p.comps else cwd ++ p.comps

/-- The `try/finally` tail of `rm_rf` and what follows it:
```python
    finally:
        if lexists(path):
            log.info("rm_rf failed for %s", path)
            return False
    if clean_empty_parents:
        remove_empty_parent_paths(path)
    return True
```
The `return False` inside `finally` swallows any in-flight exception; when
the `finally` block does not return, an in-flight exception propagates. -/
def rm_rf_finally (p : Path) (clean_empty_parents : Bool) :
    Except Err Unit × St → Except Err Bool × St
  | (r, s1) =>
    if lexistsFS s1.fs p then (.ok false, s1)
    else
      match r with
      | .error e => (.error e, s1)
      | .ok _ =>
        if clean_empty_parents then
          match remove_empty_parent_paths p s1 with
          | (.ok _, s2) => (.ok true, s2)
          | (.error e, s2) => (.error e, s2)
        else (.ok true, s1)

/-- The `try` body of `rm_rf`: classify and dispatch.
```python
        path = abspath(path)
        if isdir(path) and not islink(path):
            backoff_rmdir(path)
        elif lexists(path):
            unlink_or_rename_to_trash(path)
        else:
            log.trace("rm_rf failed. Not a link, file, or directory: %s", path)
```
-/
def rm_rf_body (win : Bool) (p : Path) : M Unit := do
  let fs ← getFs
  if isdirFS fs p && !(islinkFS fs p) then backoff_rmdir win p MAX_TRIES
  else if lexistsFS fs p then unlink_or_rename_to_trash win p
  else pure ()

/--
```python
def rm_rf(path, max_retries=5, trash=True, clean_empty_parents=False, *args, **kw):
    try:
        path = abspath(path)
        log.trace("rm_rf %s", path)
        if isdir(path) and not islink(path):
            backoff_rmdir(path)
        elif lexists(path):
            unlink_or_rename_to_trash(path)
        else:
            log.trace(...)
    finally:
        if lexists(path):
            log.info("rm_rf failed for %s", path)
            return False
    if clean_empty_parents:
        remove_empty_parent_paths(path)
    return True
```
`max_retries` and `trash` are accepted and never read by the body. -/
def rm_rf (win : Bool) (cwd : Path) (p0 : RawPath) (max_retries : Nat)
    (trash : Bool) (clean_empty_parents : Bool) : M Bool := fun st =>
  rm_rf_finally (abspath cwd p0) clean_empty_parents
    (rm_rf_body win (abspath cwd p0) st)

/-! ## `delete_trash` -/

/-- `fnmatch.fnmatch(basename, "*.trash")` (POSIX case-sensitive form):
the name ends with the reserved marker — stated on the character list of
the name, which is how a string ends with ".trash". -/
def trashMatch (name : String) : Bool :=
  List.isSuffixOf ".trash".toList name.toList

/-- The sweep body for one walk triple:
```python
for basename in files:
    if fnmatch.fnmatch(basename, "*.trash"):
        filename = join(root, basename)
        try:
            unlink(filename)
        except (OSError, IOError) as e:
            log.debug("%r errno %d\nCannot unlink %s.", e, e.errno, filename)
```
-/
def sweepTriple (t : Path × List String × List String) : M Unit :=
  mIter t.2.2 (fun b =>
    if trashMatch b then
      attemptOs (unlink (t.1 ++ [b]))
        (fun _e => emit (.logUnlinkFailEv (t.1 ++ [b])))
    else pure ())

/--
```python
def delete_trash(prefix=None):
    if not prefix:
        prefix = sys.prefix
    for root, dirs, files in walk(prefix):
        for basename in files:
            if fnmatch.fnmatch(basename, "*.trash"):
                ...
```
The sweep root is passed explicitly here; defaulting it to the
installation root (`sys.prefix`) is caller-side configuration. -/
def delete_trash (root : Path) : M Unit := do
  let fs ← getFs
  mIter (walkTriples fs root false) sweepTriple

/-- The event is an invocation of the bulk tree-deletion primitive. -/
def isRmtreeEv : Event → Bool
  | .rmtreeEv _ => true
  | _ => false

/-- The event is a permission-repair invocation (`make_writable` or
`recursive_make_writable`). -/
def isRepairEv : Event → Bool
  | .mwEv _ => true
  | .recMWEv _ => true
  | _ => false

/-- One best-effort unlink of the sweep: try to remove the file, log and
move on if an OS error occurs. -/
def sweepUnlink (q : Path) : M Unit :=
  attemptOs (unlink q) (fun _e => emit (.logUnlinkFailEv q))

/-- Run the best-effort unlink over a list of paths. -/
def sweepRun (ts : List Path) : M Unit :=
  mIter ts sweepUnlink

/-- The paths `delete_trash root` tries to unlink: for every walk triple,
the matching file names joined to their directory. -/
def sweepTargets (fs : FS) (root : Path) : List Path :=
  ((walkTriples fs root false).map
    (fun t => (t.2.2.filter trashMatch).map (fun b => t.1 ++ [b]))).flatten

/-- The path is one the trash sweep removes: an existing non-directory
entry, reachable by the walk (its parent is a visited directory under
`root`), whose basename carries the trash suffix. -/
def sweptByTrash (fs : FS) (root q : Path) : Bool :=
  lexistsFS fs q && !(isdirFS fs q) && decide (q ≠ []) &&
    visitedDir fs root q.dropLast && trashMatch (q.getLastD "")

/-! ## Helper lemmas -/

theorem bind_def {α β : Type} (m : M α) (f : α → M β) : m >>= f = M.bind m f := rfl

theorem pure_def {α : Type} (a : α) : (Pure.pure a : M α) = M.pure a := rfl

theorem lookupFS_erasePath (fs : FS) (p r : Path) :
    lookupFS (erasePath fs p) r = if r = p then none else lookupFS fs r := by
  induction fs with
  | nil => simp [erasePath, lookupFS]
  | cons e rest ih =>
    rcases e with ⟨q, k⟩
    by_cases hq : q = p <;> by_cases hr : q = r <;>
      simp_all [lookupFS, erasePath]

theorem lookupFS_eraseTree (fs : FS) (p r : Path) :
    lookupFS (eraseTree fs p) r = if List.isPrefixOf p r then none else lookupFS fs r := by
  induction fs with
  | nil => simp [eraseTree, lookupFS]
  | cons e rest ih =>
    rcases e with ⟨q, k⟩
    by_cases hq : List.isPrefixOf p q = true <;> by_cases hr : q = r <;>
      simp_all [lookupFS, eraseTree]

theorem lookupFS_insertPath (fs : FS) (p : Path) (k : NodeKind) (r : Path) :
    lookupFS (insertPath fs p k) r = if p = r then some k else lookupFS fs r := rfl

theorem rmdir_fs_cases (p : Path) (st : St) :
    (rmdir p st).2.fs = st.fs ∨ (rmdir p st).2.fs = erasePath st.fs p := by
  have core : ∀ st1 : St, st1.fs = st.fs →
      ((if p = [] then throwM (Err.os EBUSY) else
        match lookupFS st.fs p with
        | none => throwM (Err.os ENOENT)
        | some NodeKind.dir =>
          if (listdirFS st.fs p).isEmpty = true then setFs (erasePath st.fs p)
          else throwM (Err.os ENOTEMPTY)
        | some _ => throwM (Err.os ENOTDIR)) st1).2.fs = st.fs ∨
      ((if p = [] then throwM (Err.os EBUSY) else
        match lookupFS st.fs p with
        | none => throwM (Err.os ENOENT)
        | some NodeKind.dir =>
          if (listdirFS st.fs p).isEmpty = true then setFs (erasePath st.fs p)
          else throwM (Err.os ENOTEMPTY)
        | some _ => throwM (Err.os ENOTDIR)) st1).2.fs = erasePath st.fs p := by
    intro st1 hfs
    by_cases hp : p = []
    · simp [hp, throwM, hfs]
    · simp only [if_neg hp]
      rcases hl : lookupFS st.fs p with _ | k
      · simp [throwM, hfs]
      · cases k with
        | dir =>
          by_cases he : (listdirFS st.fs p).isEmpty = true
          · simp [he, setFs]
          · simp [he, throwM, hfs]
        | file => simp [throwM, hfs]
        | link b => simp [throwM, hfs]
  cases hq : st.sc.rmdirQ with
  | nil =>
    simp only [rmdir, bind_def, M.bind, emit, popRmdirQ, getFs, setFs, throwM, hq]
    exact core _ rfl
  | cons e rest =>
    cases e with
    | some err =>
      simp [rmdir, bind_def, M.bind, emit, popRmdirQ, getFs, setFs, throwM, hq]
    | none =>
      simp only [rmdir, bind_def, M.bind, emit, popRmdirQ, getFs, setFs, throwM, hq]
      exact core _ rfl

theorem rmdir_ok (p : Path) (st : St) (hp : p ≠ [])
    (hd : lookupFS st.fs p = some .dir) (he : listdirFS st.fs p = [])
    (hq : ∀ e ∈ st.sc.rmdirQ, e = none) :
    rmdir p st = (.ok (), ⟨erasePath st.fs p, { st.sc with rmdirQ := st.sc.rmdirQ.tail },
      st.tr ++ [Event.rmdirEv p]⟩) := by
  obtain ⟨fs, sc, tr⟩ := st
  obtain ⟨q1, q2, q3, q4, q5, q6⟩ := sc
  cases hqq : q4 with
  | nil =>
    subst hqq
    simp only [rmdir, bind_def, M.bind, emit, popRmdirQ, getFs, setFs, throwM]
    rw [if_neg hp]
    simp_all [List.isEmpty]
    rfl
  | cons e rest =>
    subst hqq
    have : e = none := hq e (by simp)
    subst this
    simp only [rmdir, bind_def, M.bind, emit, popRmdirQ, getFs, setFs, throwM]
    rw [if_neg hp]
    simp_all [List.isEmpty]
    rfl

theorem rmdir_cases (p : Path) (st : St) :
    (rmdir p st).2.fs = st.fs ∨
      ((rmdir p st).1 = .ok () ∧ (rmdir p st).2.fs = erasePath st.fs p) := by
  have core : ∀ st1 : St, st1.fs = st.fs →
      (((if p = [] then throwM (Err.os EBUSY) else
        match lookupFS st.fs p with
        | none => throwM (Err.os ENOENT)
        | some NodeKind.dir =>
          if (listdirFS st.fs p).isEmpty = true then setFs (erasePath st.fs p)
          else throwM (Err.os ENOTEMPTY)
        | some _ => throwM (Err.os ENOTDIR)) st1).2.fs = st.fs) ∨
      (((if p = [] then throwM (Err.os EBUSY) else
        match lookupFS st.fs p with
        | none => throwM (Err.os ENOENT)
        | some NodeKind.dir =>
          if (listdirFS st.fs p).isEmpty = true then setFs (erasePath st.fs p)
          else throwM (Err.os ENOTEMPTY)
        | some _ => throwM (Err.os ENOTDIR)) st1).1 = .ok () ∧
       ((if p = [] then throwM (Err.os EBUSY) else
        match lookupFS st.fs p with
        | none => throwM (Err.os ENOENT)
        | some NodeKind.dir =>
          if (listdirFS st.fs p).isEmpty = true then setFs (erasePath st.fs p)
          else throwM (Err.os ENOTEMPTY)
        | some _ => throwM (Err.os ENOTDIR)) st1).2.fs = erasePath st.fs p) := by
    intro st1 hfs
    by_cases hp : p = []
    · simp [hp, throwM, hfs]
    · simp only [if_neg hp]
      rcases hl : lookupFS st.fs p with _ | k
      · simp [throwM, hfs]
      · cases k with
        | dir =>
          by_cases he : (listdirFS st.fs p).isEmpty = true
          · simp [he, setFs]
          · simp [he, throwM, hfs]
        | file => simp [throwM, hfs]
        | link b => simp [throwM, hfs]
  cases hq : st.sc.rmdirQ with
  | nil =>
    simp only [rmdir, bind_def, M.bind, emit, popRmdirQ, getFs, setFs, throwM, hq]
    exact core _ rfl
  | cons e rest =>
    cases e with
    | some err =>
      simp [rmdir, bind_def, M.bind, emit, popRmdirQ, getFs, setFs, throwM, hq]
    | none =>
      simp only [rmdir, bind_def, M.bind, emit, popRmdirQ, getFs, setFs, throwM, hq]
      exact core _ rfl

theorem rmdir_root_fs (st : St) : (rmdir [] st).2.fs = st.fs := by
  cases hq : st.sc.rmdirQ with
  | nil => simp [rmdir, bind_def, M.bind, emit, popRmdirQ, getFs, throwM, hq]
  | cons e rest =>
    cases e with
    | some err => simp [rmdir, bind_def, M.bind, emit, popRmdirQ, getFs, throwM, hq]
    | none => simp [rmdir, bind_def, M.bind, emit, popRmdirQ, getFs, throwM, hq]

theorem bind_apply {α β : Type} (m : M α) (f : α → M β) (st : St) :
    (m >>= f) st = match m st with
      | (.ok a, st1) => f a st1
      | (.error e, st1) => (.error e, st1) := rfl

theorem bindApplyM {α β : Type} (m : M α) (f : α → M β) (st : St) :
    M.bind m f st = match m st with
      | (.ok a, st1) => f a st1
      | (.error e, st1) => (.error e, st1) := rfl

theorem attemptAll_apply {α : Type} (m : M α) (h : Err → M α) (st : St) :
    attemptAll m h st = match m st with
      | (.error e, st1) => h e st1
      | (.ok a, st1) => (.ok a, st1) := by
  unfold attemptAll
  rcases m st with ⟨res, st1⟩
  cases res <;> rfl

theorem attemptOs_apply {α : Type} (m : M α) (h : Err → M α) (st : St) :
    attemptOs m h st = match m st with
      | (.error (.os n), st1) => h (.os n) st1
      | (.error .other, st1) => (.error .other, st1)
      | (.ok a, st1) => (.ok a, st1) := by
  unfold attemptOs
  rcases m st with ⟨res, st1⟩
  cases res with
  | ok a => rfl
  | error e => cases e <;> rfl

theorem removeParentsGoN_stop (n : Nat) (p : Path) (st : St)
    (h : ¬(isdirFS st.fs p = true ∧ listdirFS st.fs p = [])) :
    removeParentsGoN n p st = (.ok (), st) := by
  have h2 : ((isdirFS st.fs p && (listdirFS st.fs p).isEmpty) = true) → False := by
    intro hb
    simp only [Bool.and_eq_true, List.isEmpty_iff] at hb
    exact h hb
  cases n with
  | zero =>
    simp only [removeParentsGoN, bind_def, M.bind, getFs]
    rw [if_neg h2]
    rfl
  | succ n =>
    simp only [removeParentsGoN, bind_def, M.bind, getFs]
    rw [if_neg h2]
    rfl

theorem removeParentsGo_stop (p : Path) (st : St)
    (h : ¬(isdirFS st.fs p = true ∧ listdirFS st.fs p = [])) :
    removeParentsGo p st = (.ok (), st) :=
  removeParentsGoN_stop p.length p st h

theorem removeParentsGoN_cons_bind (n : Nat) (q : Path) (st : St)
    (hc : isdirFS st.fs q = true) (he : listdirFS st.fs q = []) :
    removeParentsGoN (n + 1) q st =
      match rmdir q st with
      | (.ok _, st1) => removeParentsGoN n q.dropLast st1
      | (.error e, st1) => (.error e, st1) := by
  simp only [removeParentsGoN, bind_def, M.bind, getFs]
  simp only [hc, he, List.isEmpty_nil, Bool.and_self, if_true]
  rw [bindApplyM]
  rcases hrm : rmdir q st with ⟨res, st1⟩
  cases res <;> rfl

theorem removeParentsGoN_zero_fs (q : Path) (st : St) (r : Path) (hne : r ≠ q) :
    lookupFS ((removeParentsGoN 0 q st).2.fs) r = lookupFS st.fs r := by
  by_cases hc : isdirFS st.fs q = true ∧ listdirFS st.fs q = []
  · have hgo : removeParentsGoN 0 q st = rmdir q st := by
      simp only [removeParentsGoN, bind_def, M.bind, getFs]
      simp [hc.1, hc.2]
    rw [hgo]
    rcases rmdir_cases q st with hfs | ⟨_, hfs⟩ <;> rw [hfs]
    rw [lookupFS_erasePath, if_neg hne]
  · rw [removeParentsGoN_stop 0 q st hc]

theorem removeParentsGoN_frame (n : Nat) : ∀ (q : Path) (st : St) (r : Path),
    ¬ (r <+: q) →
    lookupFS ((removeParentsGoN n q st).2.fs) r = lookupFS st.fs r := by
  induction n with
  | zero =>
    intro q st r hr
    exact removeParentsGoN_zero_fs q st r (fun h => hr (h ▸ List.prefix_refl r))
  | succ n ih =>
    intro q st r hr
    by_cases hc : isdirFS st.fs q = true ∧ listdirFS st.fs q = []
    · rw [removeParentsGoN_cons_bind n q st hc.1 hc.2]
      have hrd : ¬ (r <+: q.dropLast) := by
        intro hpre
        exact hr (hpre.trans (List.dropLast_prefix _))
      have hrq : r ≠ q := fun h => hr (h ▸ List.prefix_refl r)
      rcases hrm : rmdir q st with ⟨res, st1⟩
      rcases rmdir_cases q st with hfs1 | ⟨hok, hfs1⟩ <;>
        rw [hrm] at hfs1 <;> simp only at hfs1
      · cases res with
        | error e => simp only [hfs1]
        | ok u =>
          simp only
          rw [ih _ st1 r hrd, hfs1]
      · cases res with
        | error e =>
          rw [hrm] at hok
          exact absurd hok (by simp)
        | ok u =>
          simp only
          rw [ih _ st1 r hrd, hfs1, lookupFS_erasePath, if_neg hrq]
    · rw [removeParentsGoN_stop _ q st hc]

theorem removeParentsGo_frame (q : Path) (st : St) (r : Path) (hr : ¬ (r <+: q)) :
    lookupFS ((removeParentsGo q st).2.fs) r = lookupFS st.fs r :=
  removeParentsGoN_frame q.length q st r hr

theorem removeParentsGoN_none (n : Nat) : ∀ (q : Path) (st : St) (r : Path),
    lookupFS st.fs r = none →
    lookupFS ((removeParentsGoN n q st).2.fs) r = none := by
  induction n with
  | zero =>
    intro q st r h0
    by_cases hre : r = q
    · subst hre
      by_cases hc : isdirFS st.fs r = true ∧ listdirFS st.fs r = []
      · have hgo : removeParentsGoN 0 r st = rmdir r st := by
          simp only [removeParentsGoN, bind_def, M.bind, getFs]
          simp [hc.1, hc.2]
        rw [hgo]
        rcases rmdir_cases r st with hfs | ⟨_, hfs⟩ <;> rw [hfs]
        · exact h0
        · rw [lookupFS_erasePath]
          simp
      · rw [removeParentsGoN_stop 0 r st hc]

        exact h0
    · rw [removeParentsGoN_zero_fs q st r hre]
      exact h0
  | succ n ih =>
    intro q st r h0
    by_cases hc : isdirFS st.fs q = true ∧ listdirFS st.fs q = []
    · rw [removeParentsGoN_cons_bind n q st hc.1 hc.2]
      rcases hrm : rmdir q st with ⟨res, st1⟩
      rcases rmdir_cases q st with hfs1 | ⟨hok, hfs1⟩ <;>
        rw [hrm] at hfs1 <;> simp only at hfs1
      · cases res with
        | error e =>
          simp only [hfs1]
          exact h0
        | ok u =>
          simp only
          exact ih _ st1 r (by rw [hfs1]; exact h0)
      · cases res with
        | error e =>
          rw [hrm] at hok
          exact absurd hok (by simp)
        | ok u =>
          simp only
          refine ih _ st1 r ?_
          rw [hfs1, lookupFS_erasePath]
          by_cases hre : r = q
          · simp [hre]
          · simp [hre, h0]
    · rw [removeParentsGoN_stop _ q st hc]
      exact h0

theorem removeParentsGo_none (q : Path) (st : St) (r : Path)
    (h0 : lookupFS st.fs r = none) :
    lookupFS ((removeParentsGo q st).2.fs) r = none :=
  removeParentsGoN_none q.length q st r h0

theorem lexistsFS_eq_false_iff (fs : FS) (p : Path) :
    lexistsFS fs p = false ↔ lookupFS fs p = none := by
  cases h : lookupFS fs p <;> simp [lexistsFS, h]

/-! ## Claims -/

/-- **C1.** For every path and every option combination, `rm_rf` returns
`true` if and only if the path is absent immediately after the deletion
attempt: whenever `rm_rf` returns a boolean at all, `true` means the
(normalized) path is confirmed absent in the resulting filesystem and
`false` means it (or part of it) still exists.  Quantified over every
filesystem, working directory, platform flag, option combination and fault
script. -/
theorem rm_rf_true_iff_absent (win : Bool) (cwd : Path) (p0 : RawPath)
    (max_retries : Nat) (trash clean_empty_parents : Bool) (st st' : St) (b : Bool)
    (h : rm_rf win cwd p0 max_retries trash clean_empty_parents st = (.ok b, st')) :
    b = true ↔ lexistsFS st'.fs (abspath cwd p0) = false := by
  unfold rm_rf at h
  rcases hbody : rm_rf_body win (abspath cwd p0) st with ⟨r1, s1⟩
  rw [hbody] at h
  simp only [rm_rf_finally] at h
  by_cases hex : lexistsFS s1.fs (abspath cwd p0) = true
  · rw [if_pos hex] at h
    simp only [Prod.mk.injEq, Except.ok.injEq] at h
    obtain ⟨hb, hst⟩ := h
    subst hb
    subst hst
    simp [hex]
  · have hex2 : lexistsFS s1.fs (abspath cwd p0) = false := eq_false_of_ne_true hex
    rw [if_neg hex] at h
    cases r1 with
    | error e => simp at h
    | ok u =>
      by_cases hcep : clean_empty_parents = true
      · rw [if_pos hcep] at h
        rcases hrp : remove_empty_parent_paths (abspath cwd p0) s1 with ⟨r2, s2⟩
        rw [hrp] at h
        cases r2 with
        | error e => simp at h
        | ok v =>
          simp only [Prod.mk.injEq, Except.ok.injEq] at h
          obtain ⟨hb, hst⟩ := h
          subst hb
          subst hst
          have hnone : lookupFS s1.fs (abspath cwd p0) = none :=
            (lexistsFS_eq_false_iff _ _).mp hex2
          have h2 : lookupFS ((remove_empty_parent_paths (abspath cwd p0) s1).2.fs)
              (abspath cwd p0) = none :=
            removeParentsGo_none _ _ _ hnone
          rw [hrp] at h2
          simp [lexistsFS_eq_false_iff, h2]
      · rw [if_neg hcep] at h
        simp only [Prod.mk.injEq, Except.ok.injEq] at h
        obtain ⟨hb, hst⟩ := h
        subst hb
        subst hst
        simp [hex2]

/-- Witness for `rm_rf_true_iff_absent`: deleting the lone file `/x` with
no faults returns `true` and the file is gone. -/
theorem rm_rf_true_iff_absent_witness :
    (rm_rf false [] ⟨true, ["x"]⟩ 5 true false ⟨[(["x"], .file)], Script.empty, []⟩).1
        = .ok true ∧
    lexistsFS (rm_rf false [] ⟨true, ["x"]⟩ 5 true false
        ⟨[(["x"], .file)], Script.empty, []⟩).2.fs ["x"] = false := by
  have h : rm_rf false [] ⟨true, ["x"]⟩ 5 true false ⟨[(["x"], .file)], Script.empty, []⟩
      = (.ok true, ⟨[], Script.empty, [.callUnlinkTrashEv ["x"], .mwEv ["x"], .unlinkEv ["x"]]⟩) := by
    rfl
  refine ⟨?_, ?_⟩
  · rw [h]
  · exact (rm_rf_true_iff_absent false [] ⟨true, ["x"]⟩ 5 true false _ _ true h).mp rfl

/-- **C2 (counterexample).** `rm_rf` can raise: on the helper platform, for
the lone directory `/d`, a first bulk `rmtree` that succeeds followed by
the final `_rmdir`-tier `rmtree` on the now-missing path raising a non-OS
`CalledProcessError` (exactly what `check_call` of `rd /s /q` does on a
missing path) escapes `rm_rf`, because the `finally` block only swallows
the exception when the path still exists.  This refutes the claim that
`rm_rf` never raises, and does so precisely in the claim's own "underlying
operation raises after the path has already vanished" scenario. -/
theorem rm_rf_raises_counterexample :
    (rm_rf true [] ⟨true, ["d"]⟩ 5 true false
      ⟨[(["d"], .dir)], { Script.empty with rmtreeQ := [none, some .other] }, []⟩).1
      = .error .other := rfl

/-- **C2 (amended).** `rm_rf` absorbs every lower-level error whenever the
path still exists at the `finally` re-check, turning it into a `false`
return; an exception escapes `rm_rf` only in executions whose final
filesystem no longer contains the path.  Quantified over every filesystem,
option combination and fault script. -/
theorem rm_rf_error_only_when_absent (win : Bool) (cwd : Path) (p0 : RawPath)
    (max_retries : Nat) (trash clean_empty_parents : Bool) (st st' : St) (e : Err)
    (h : rm_rf win cwd p0 max_retries trash clean_empty_parents st = (.error e, st')) :
    lexistsFS st'.fs (abspath cwd p0) = false := by
  unfold rm_rf at h
  rcases hbody : rm_rf_body win (abspath cwd p0) st with ⟨r1, s1⟩
  rw [hbody] at h
  simp only [rm_rf_finally] at h
  by_cases hex : lexistsFS s1.fs (abspath cwd p0) = true
  · rw [if_pos hex] at h
    simp at h
  · have hex2 : lexistsFS s1.fs (abspath cwd p0) = false := eq_false_of_ne_true hex
    rw [if_neg hex] at h
    cases r1 with
    | error e1 =>
      simp only [Prod.mk.injEq, Except.error.injEq] at h
      obtain ⟨he1, hst⟩ := h
      subst hst
      exact hex2
    | ok u =>
      by_cases hcep : clean_empty_parents = true
      · rw [if_pos hcep] at h
        rcases hrp : remove_empty_parent_paths (abspath cwd p0) s1 with ⟨r2, s2⟩
        rw [hrp] at h
        cases r2 with
        | error e2 =>
          simp only [Prod.mk.injEq, Except.error.injEq] at h
          obtain ⟨he2, hst⟩ := h
          subst hst
          have hnone : lookupFS s1.fs (abspath cwd p0) = none :=
            (lexistsFS_eq_false_iff _ _).mp hex2
          have h2 : lookupFS ((remove_empty_parent_paths (abspath cwd p0) s1).2.fs)
              (abspath cwd p0) = none :=
            removeParentsGo_none _ _ _ hnone
          rw [hrp] at h2
          exact (lexistsFS_eq_false_iff _ _).mpr h2
        | ok v => simp at h
      · rw [if_neg hcep] at h
        simp at h

/-- Witness for `rm_rf_error_only_when_absent`: in the raising run of
`rm_rf_raises_counterexample`'s scenario the directory is indeed gone. -/
theorem rm_rf_error_only_when_absent_witness :
    lexistsFS (rm_rf true [] ⟨true, ["d"]⟩ 5 true false
      ⟨[(["d"], .dir)], { Script.empty with rmtreeQ := [none, some .other] }, []⟩).2.fs
      ["d"] = false := by
  have h : rm_rf true [] ⟨true, ["d"]⟩ 5 true false
      ⟨[(["d"], .dir)], { Script.empty with rmtreeQ := [none, some .other] }, []⟩
      = (.error .other, ⟨[], Script.empty,
          [.callBackoffEv ["d"], .rmtreeEv ["d"], .recMWEv ["d"], .mwEv ["d"],
           .rmtreeEv ["d"]]⟩) := rfl
  rw [h]
  exact rm_rf_error_only_when_absent true [] ⟨true, ["d"]⟩ 5 true false _ _ .other h

/-- **C9.** The `trash` parameter gates nothing: for every path, every
other option, every filesystem and every fault script, the two runs of
`rm_rf` with `trash = true` and `trash = false` are identical in result,
filesystem, consumed faults and trace (the body of the source function
never reads `trash`, and the trash fallback is attempted regardless). -/
theorem rm_rf_trash_param_no_effect (win : Bool) (cwd : Path) (p0 : RawPath)
    (max_retries : Nat) (t1 t2 : Bool) (clean_empty_parents : Bool) (st : St) :
    rm_rf win cwd p0 max_retries t1 clean_empty_parents st
      = rm_rf win cwd p0 max_retries t2 clean_empty_parents st := rfl

/-- **C10.** The `max_retries` parameter has no observable effect: for any
two values, the runs of `rm_rf` coincide on every input — the body never
reads it, and `backoff_rmdir` is always invoked with the process-wide
default `MAX_TRIES`. -/
theorem rm_rf_max_retries_no_effect (win : Bool) (cwd : Path) (p0 : RawPath)
    (mr1 mr2 : Nat) (trash clean_empty_parents : Bool) (st : St) :
    rm_rf win cwd p0 mr1 trash clean_empty_parents st
      = rm_rf win cwd p0 mr2 trash clean_empty_parents st := rfl

theorem isdirFS_of_none (fs : FS) (p : Path) (h : lookupFS fs p = none) :
    isdirFS fs p = false := by
  simp [isdirFS, h]

/-- **C6.** `rm_rf` normalizes its argument against the working directory
(`abspath`) and dispatches on the classification of the normalized path:
a directory that is not a symlink goes to `backoff_rmdir` (invoked with the
process-wide `MAX_TRIES`); anything else that `lexists` (file, symlink, or
broken link) goes to `unlink_or_rename_to_trash`; otherwise no deletion
operation runs at all — with `clean_empty_parents` unset the call returns
`true` leaving the state untouched.  Each branch equation factors the run
through `rm_rf_finally`, the embedded `try/finally` tail. -/
theorem rm_rf_dispatch (win : Bool) (cwd : Path) (p0 : RawPath)
    (max_retries : Nat) (trash clean_empty_parents : Bool) (st : St) :
    (isdirFS st.fs (abspath cwd p0) = true → islinkFS st.fs (abspath cwd p0) = false →
      rm_rf win cwd p0 max_retries trash clean_empty_parents st
        = rm_rf_finally (abspath cwd p0) clean_empty_parents
            (backoff_rmdir win (abspath cwd p0) MAX_TRIES st)) ∧
    ((isdirFS st.fs (abspath cwd p0) && !(islinkFS st.fs (abspath cwd p0))) = false →
      lexistsFS st.fs (abspath cwd p0) = true →
      rm_rf win cwd p0 max_retries trash clean_empty_parents st
        = rm_rf_finally (abspath cwd p0) clean_empty_parents
            (unlink_or_rename_to_trash win (abspath cwd p0) st)) ∧
    (lexistsFS st.fs (abspath cwd p0) = false →
      rm_rf win cwd p0 max_retries trash clean_empty_parents st
        = rm_rf_finally (abspath cwd p0) clean_empty_parents (.ok (), st)) ∧
    (lexistsFS st.fs (abspath cwd p0) = false → clean_empty_parents = false →
      rm_rf win cwd p0 max_retries trash clean_empty_parents st = (.ok true, st)) := by
  refine ⟨?_, ?_, ?_, ?_⟩
  · intro h1 h2
    unfold rm_rf
    congr 1
    simp only [rm_rf_body, bind_def, M.bind, getFs]
    simp [h1, h2]
  · intro h1 h2
    unfold rm_rf
    congr 1
    simp only [rm_rf_body, bind_def, M.bind, getFs]
    simp [h1, h2]
  · intro h1
    have hnone : lookupFS st.fs (abspath cwd p0) = none :=
      (lexistsFS_eq_false_iff _ _).mp h1
    have hdir : isdirFS st.fs (abspath cwd p0) = false := isdirFS_of_none _ _ hnone
    unfold rm_rf
    congr 1
    simp only [rm_rf_body, bind_def, M.bind, getFs]
    simp [hdir, h1, M.pure, pure_def]
  · intro h1 h2
    have hnone : lookupFS st.fs (abspath cwd p0) = none :=
      (lexistsFS_eq_false_iff _ _).mp h1
    have hdir : isdirFS st.fs (abspath cwd p0) = false := isdirFS_of_none _ _ hnone
    subst h2
    unfold rm_rf
    simp only [rm_rf_body, bind_def, M.bind, getFs]
    simp only [hdir, Bool.false_and, Bool.false_eq_true, if_false, h1, pure_def]
    simp only [rm_rf_finally, M.pure, h1, Bool.false_eq_true, if_false]

/-- Witness for `rm_rf_dispatch`: the lone directory `/d` goes through
`backoff_rmdir`, and a missing path is a no-op returning `true`. -/
theorem rm_rf_dispatch_witness :
    (rm_rf false [] ⟨true, ["d"]⟩ 5 true false ⟨[(["d"], .dir)], Script.empty, []⟩
      = rm_rf_finally ["d"] false
          (backoff_rmdir false ["d"] MAX_TRIES ⟨[(["d"], .dir)], Script.empty, []⟩)) ∧
    (rm_rf false [] ⟨true, ["z"]⟩ 5 true false ⟨[(["d"], .dir)], Script.empty, []⟩
      = (.ok true, ⟨[(["d"], .dir)], Script.empty, []⟩)) :=
  ⟨(rm_rf_dispatch false [] ⟨true, ["d"]⟩ 5 true false _).1 rfl rfl,
   (rm_rf_dispatch false [] ⟨true, ["z"]⟩ 5 true false _).2.2.2 rfl rfl⟩

/-- **C3 (counterexample).** First-tier structure of `backoff_rmdir` on the
directory `/d` containing one file `/d/f`, with a transient EACCES injected
into the first bulk `rmtree`: the trace shows the bulk deletion is invoked
immediately — no `recursive_make_writable` (nor any repair call) precedes
the first `rmtree` event, and the faulted transient `rmtree` is not retried
(the per-entry walk runs next), refuting the claim that the first tier is
`recursive_make_writable` followed by `rmtree` wrapped in the
exponential-backoff retry wrapper. -/
theorem backoff_first_tier_counterexample :
    ((backoff_rmdir false ["d"] 5
        ⟨[(["d"], .dir), (["d", "f"], .file)],
         { Script.empty with rmtreeQ := [some (.os EACCES)] }, []⟩).2.tr
      = [.callBackoffEv ["d"], .rmtreeEv ["d"], .callUnlinkTrashEv ["d", "f"],
         .mwEv ["d", "f"], .unlinkEv ["d", "f"], .recMWEv ["d"], .mwEv ["d"],
         .rmtreeEv ["d"]]) ∧
    (((backoff_rmdir false ["d"] 5
        ⟨[(["d"], .dir), (["d", "f"], .file)],
         { Script.empty with rmtreeQ := [some (.os EACCES)] }, []⟩).2.tr.takeWhile
        (fun ev => !isRmtreeEv ev)).any isRepairEv = false) :=
  ⟨rfl, rfl⟩

/-- **C3 (amended).** The first (bulk) tier of `backoff_rmdir` on an
existing directory is a single bare call to the bulk tree-deletion
primitive — no preceding `recursive_make_writable`, no backoff wrapper, no
effective `onerror` callback, no `max_tries` — under a bare
`except: pass`: whatever the `rmtree` outcome (success, OS error, or
non-OS error), the run continues identically with the per-entry walk phase
on the post-`rmtree` state.  An error in the first tier is thereby
swallowed and only causes fall-through, never a raised exception or final
failure of the first tier itself. -/
theorem backoff_rmdir_first_tier_bare (win : Bool) (d : Path) (mt : Nat) (st : St)
    (h : isdirFS st.fs d = true) :
    backoff_rmdir win d mt st
      = backoffWalkPhase win d mt
          (rmtree d { st with tr := st.tr ++ [.callBackoffEv d] }).2 := by
  rcases hrm : rmtree d { st with tr := st.tr ++ [.callBackoffEv d] } with ⟨res, st2⟩
  simp only [backoff_rmdir, bind_def, M.bind, emit, getFs]
  simp only [h, Bool.not_true, Bool.false_eq_true, if_false]
  rw [bindApplyM, attemptAll_apply, hrm]
  cases res with
  | ok u => rfl
  | error e => rfl

/-- Witness for `backoff_rmdir_first_tier_bare` at the concrete lone
directory `/d` with an empty fault script. -/
theorem backoff_rmdir_first_tier_bare_witness :
    backoff_rmdir false ["d"] 5 ⟨[(["d"], .dir)], Script.empty, []⟩
      = backoffWalkPhase false ["d"] 5
          (rmtree ["d"] ⟨[(["d"], .dir)], Script.empty, [.callBackoffEv ["d"]]⟩).2 :=
  backoff_rmdir_first_tier_bare false ["d"] 5 ⟨[(["d"], .dir)], Script.empty, []⟩ rfl

theorem make_writable_missing (p : Path) (st : St)
    (h : lexistsFS st.fs p = false) :
    make_writable p st = (.ok (), { st with tr := st.tr ++ [.mwEv p] }) := by
  simp only [make_writable, bind_def, M.bind, emit, getFs]
  simp [h, M.pure, pure_def]

theorem unlink_missing (p : Path) (st : St)
    (h : lookupFS st.fs p = none)
    (hu : ∀ e ∈ st.sc.unlinkQ, e = none) :
    unlink p st = (.error (.os ENOENT),
      { st with sc := { st.sc with unlinkQ := st.sc.unlinkQ.tail },
                tr := st.tr ++ [.unlinkEv p] }) := by
  obtain ⟨fs, sc, tr⟩ := st
  obtain ⟨q1, q2, q3, q4, q5, q6⟩ := sc
  simp only at h hu
  cases hq : q2 with
  | nil =>
    subst hq
    simp only [unlink, bind_def, M.bind, emit, popUnlinkQ, getFs, throwM]
    simp [h, throwM]
  | cons e rest =>
    subst hq
    have : e = none := hu e (by simp)
    subst this
    simp only [unlink, bind_def, M.bind, emit, popUnlinkQ, getFs, throwM]
    simp [h, throwM]

theorem rename_missing (src dst : Path) (st : St)
    (h : lookupFS st.fs src = none)
    (hr : ∀ e ∈ st.sc.renameQ, e = none) :
    rename src dst st = (.error (.os ENOENT),
      { st with sc := { st.sc with renameQ := st.sc.renameQ.tail },
                tr := st.tr ++ [.renameEv src dst] }) := by
  obtain ⟨fs, sc, tr⟩ := st
  obtain ⟨q1, q2, q3, q4, q5, q6⟩ := sc
  simp only at h hr
  cases hq : q3 with
  | nil =>
    subst hq
    simp only [rename, bind_def, M.bind, emit, popRenameQ, getFs, throwM]
    simp [h, throwM]
  | cons e rest =>
    subst hq
    have : e = none := hr e (by simp)
    subst this
    simp only [rename, bind_def, M.bind, emit, popRenameQ, getFs, throwM]
    simp [h, throwM]

theorem popenRenameTrash_ok (d : Path) (fn : String) (st : St) :
    (popenRenameTrash d fn st).1 = .ok () := by
  obtain ⟨fs, sc, tr⟩ := st
  obtain ⟨q1, q2, q3, q4, q5, q6⟩ := sc
  cases hq : q6 with
  | nil =>
    subst hq
    simp only [popenRenameTrash, bind_def, M.bind, emit, popPopenQ, getFs, setFs]
    rcases hl : lookupFS fs (d ++ [fn]) with _ | k <;> simp [hl, M.pure, pure_def, setFs, throwM]
  | cons e rest =>
    subst hq
    cases e with
    | some err =>
      simp only [popenRenameTrash, bind_def, M.bind, emit, popPopenQ, getFs, setFs]
      simp [M.pure, pure_def]
    | none =>
      simp only [popenRenameTrash, bind_def, M.bind, emit, popPopenQ, getFs, setFs]
      rcases hl : lookupFS fs (d ++ [fn]) with _ | k <;> simp [hl, M.pure, pure_def, setFs, throwM]

/-- **C4 (counterexample).** On the in-place-rename platform (non-Windows),
`unlink_or_rename_to_trash` on the missing path `/x` raises `OSError`
ENOENT instead of completing successfully: the ENOENT of `unlink` is caught,
but the fallback `rename(path, path + ".trash")` then fails with ENOENT
itself, which nothing catches. -/
theorem unlink_or_rename_missing_counterexample :
    (unlink_or_rename_to_trash false ["x"] ⟨[], Script.empty, []⟩).1
      = .error (.os ENOENT) := rfl

/-- **C4 (amended).** For a path that does not exist when the operation
acts on it (no faults injected into `unlink`/`rename`, so the only errors
are the intrinsic operate-on-missing-path ones): on the external-helper
platform the call completes successfully — the ENOENT is absorbed, not
retried, not surfaced; on the in-place-rename platform the ENOENT from
`unlink` triggers the rename fallback, which itself raises ENOENT, and
that error **is** surfaced to the caller (still never retried). -/
theorem unlink_or_rename_missing_path (p : Path) (st : St)
    (hmiss : lexistsFS st.fs p = false)
    (hu : ∀ e ∈ st.sc.unlinkQ, e = none)
    (hr : ∀ e ∈ st.sc.renameQ, e = none) :
    (unlink_or_rename_to_trash true p st).1 = .ok () ∧
    (unlink_or_rename_to_trash false p st).1 = .error (.os ENOENT) := by
  have hnone : lookupFS st.fs p = none := (lexistsFS_eq_false_iff _ _).mp hmiss
  have hmw := make_writable_missing p { st with tr := st.tr ++ [.callUnlinkTrashEv p] } hmiss
  have hul := unlink_missing p
      { st with tr := (st.tr ++ [.callUnlinkTrashEv p]) ++ [.mwEv p] } hnone hu
  have hre := rename_missing p (trashName p)
      { st with sc := { st.sc with unlinkQ := st.sc.unlinkQ.tail },
                tr := ((st.tr ++ [.callUnlinkTrashEv p]) ++ [.mwEv p]) ++ [.unlinkEv p] }
      hnone hr
  constructor
  · simp only [unlink_or_rename_to_trash, bind_def, M.bind, emit]
    rw [attemptOs_apply, bindApplyM, hmw]
    simp only [hul]
    simp only [if_true]
    exact popenRenameTrash_ok _ _ _
  · simp only [unlink_or_rename_to_trash, bind_def, M.bind, emit]
    rw [attemptOs_apply, bindApplyM, hmw]
    simp only [hul]
    simp only [Bool.false_eq_true, if_false]
    rw [hre]

/-- Witness for `unlink_or_rename_missing_path` at the missing path `/x`
in the empty filesystem. -/
theorem unlink_or_rename_missing_path_witness :
    (unlink_or_rename_to_trash true ["x"] ⟨[], Script.empty, []⟩).1 = .ok () ∧
    (unlink_or_rename_to_trash false ["x"] ⟨[], Script.empty, []⟩).1
      = .error (.os ENOENT) :=
  unlink_or_rename_missing_path ["x"] ⟨[], Script.empty, []⟩ rfl (by simp [Script.empty])
    (by simp [Script.empty])

theorem string_append_trash_ne (s : String) : s ++ ".trash" ≠ s := by
  intro h
  have hlen := congrArg String.length h
  rw [String.length_append] at hlen
  have h6 : (".trash" : String).length = 6 := rfl
  omega

theorem trashName_ne (p : Path) (hne : p ≠ []) : trashName p ≠ p := by
  intro h
  unfold trashName at h
  rcases List.eq_nil_or_concat p with rfl | ⟨l, a, rfl⟩
  · exact hne rfl
  · simp only [List.concat_eq_append] at h
    rw [List.dropLast_concat, List.getLastD_concat] at h
    have h2 := List.append_cancel_left h
    have ha : a ++ ".trash" = a := by injection h2
    exact string_append_trash_ne a ha

theorem make_writable_exists (p : Path) (st : St)
    (h : lexistsFS st.fs p = true) :
    make_writable p st =
      ((match st.sc.mwQ.head?.getD none with
        | some e => .error e
        | none => .ok ()),
       { st with sc := { st.sc with mwQ := st.sc.mwQ.tail },
                 tr := st.tr ++ [.mwEv p] }) := by
  obtain ⟨fs, sc, tr⟩ := st
  obtain ⟨q1, q2, q3, q4, q5, q6⟩ := sc
  simp only at h
  cases hq : q1 with
  | nil =>
    subst hq
    simp only [make_writable, bind_def, M.bind, emit, popMwQ, getFs, throwM]
    simp [h, M.bind, popMwQ, throwM, M.pure, pure_def]
  | cons e rest =>
    subst hq
    cases e with
    | some err =>
      simp only [make_writable, bind_def, M.bind, emit, popMwQ, getFs, throwM]
      simp [h, M.bind, popMwQ, throwM, M.pure, pure_def]
    | none =>
      simp only [make_writable, bind_def, M.bind, emit, popMwQ, getFs, throwM]
      simp [h, M.bind, popMwQ, throwM, M.pure, pure_def]

theorem unlink_eq (p : Path) (st : St) :
    unlink p st =
      (match st.sc.unlinkQ.head?.getD none, lookupFS st.fs p with
        | some e, _ => (.error e,
            { st with sc := { st.sc with unlinkQ := st.sc.unlinkQ.tail },
                      tr := st.tr ++ [.unlinkEv p] })
        | none, none => (.error (.os ENOENT),
            { st with sc := { st.sc with unlinkQ := st.sc.unlinkQ.tail },
                      tr := st.tr ++ [.unlinkEv p] })
        | none, some .dir => (.error (.os EISDIR),
            { st with sc := { st.sc with unlinkQ := st.sc.unlinkQ.tail },
                      tr := st.tr ++ [.unlinkEv p] })
        | none, some _ => (.ok (),
            { st with fs := erasePath st.fs p,
                      sc := { st.sc with unlinkQ := st.sc.unlinkQ.tail },
                      tr := st.tr ++ [.unlinkEv p] })) := by
  obtain ⟨fs, sc, tr⟩ := st
  obtain ⟨q1, q2, q3, q4, q5, q6⟩ := sc
  cases hq : q2 with
  | nil =>
    subst hq
    simp only [unlink, bind_def, M.bind, emit, popUnlinkQ, getFs, setFs, throwM]
    rcases hl : lookupFS fs p with _ | k
    · simp [hl, M.bind, popUnlinkQ, throwM, setFs]
    · cases k <;> simp [hl, M.bind, popUnlinkQ, throwM, setFs]
  | cons e rest =>
    subst hq
    cases e with
    | some err =>
      simp [unlink, bind_def, M.bind, emit, popUnlinkQ, getFs, setFs, throwM]
    | none =>
      simp only [unlink, bind_def, M.bind, emit, popUnlinkQ, getFs, setFs, throwM]
      rcases hl : lookupFS fs p with _ | k
      · simp [hl, M.bind, popUnlinkQ, throwM, setFs]
      · cases k <;> simp [hl, M.bind, popUnlinkQ, throwM, setFs]

theorem rename_eq (src dst : Path) (st : St) :
    rename src dst st =
      (match st.sc.renameQ.head?.getD none, lookupFS st.fs src with
        | some e, _ => (.error e,
            { st with sc := { st.sc with renameQ := st.sc.renameQ.tail },
                      tr := st.tr ++ [.renameEv src dst] })
        | none, none => (.error (.os ENOENT),
            { st with sc := { st.sc with renameQ := st.sc.renameQ.tail },
                      tr := st.tr ++ [.renameEv src dst] })
        | none, some k => (.ok (),
            { st with fs := insertPath (erasePath (erasePath st.fs dst) src) dst k,
                      sc := { st.sc with renameQ := st.sc.renameQ.tail },
                      tr := st.tr ++ [.renameEv src dst] })) := by
  obtain ⟨fs, sc, tr⟩ := st
  obtain ⟨q1, q2, q3, q4, q5, q6⟩ := sc
  cases hq : q3 with
  | nil =>
    subst hq
    simp only [rename, bind_def, M.bind, emit, popRenameQ, getFs, setFs, throwM]
    rcases hl : lookupFS fs src with _ | k <;> simp [hl, M.bind, popRenameQ, throwM, setFs]
  | cons e rest =>
    subst hq
    cases e with
    | some err =>
      simp [rename, bind_def, M.bind, emit, popRenameQ, getFs, setFs, throwM]
    | none =>
      simp only [rename, bind_def, M.bind, emit, popRenameQ, getFs, setFs, throwM]
      rcases hl : lookupFS fs src with _ | k <;> simp [hl, M.bind, popRenameQ, throwM, setFs]

theorem head_getD_os (l : List (Option Err))
    (hl : ∀ e ∈ l, e = none ∨ ∃ n, e = some (.os n)) (e : Err)
    (h : l.head?.getD none = some e) : ∃ n, e = .os n := by
  cases l with
  | nil => simp at h
  | cons e0 rest =>
    simp only [List.head?_cons, Option.getD_some] at h
    rcases hl e0 (by simp) with h0 | ⟨n, h0⟩
    · rw [h0] at h
      simp at h
    · rw [h0] at h
      injection h with h
      exact ⟨n, h.symm⟩

theorem head_getD_none (l : List (Option Err))
    (hl : ∀ e ∈ l, e = none) : l.head?.getD none = none := by
  cases l with
  | nil => rfl
  | cons e0 rest => simpa using hl e0 (by simp)

theorem rm_rf_finally_ok_absent (p : Path) (s3 : St)
    (h : lookupFS s3.fs p = none) :
    rm_rf_finally p false (.ok (), s3) = (.ok true, s3) := by
  simp [rm_rf_finally, lexistsFS, h]

/-- **C5.** On the in-place-rename platform, for every existing regular
file `F` (with no faults on the rename queue, renames being the operations
the claim assumes work, and only OS-level faults on `make_writable` and
`unlink`), `rm_rf F` returns `true` and `F` no longer exists under its
original name: either the file was unlinked directly (the filesystem is
exactly the original minus `F`), or the direct unlink path failed and `F`
was renamed in place to `F + ".trash"`. -/
theorem rm_rf_regular_file (cwd : Path) (p0 : RawPath) (max_retries : Nat)
    (trash : Bool) (st : St)
    (hfile : lookupFS st.fs (abspath cwd p0) = some .file)
    (hne : abspath cwd p0 ≠ [])
    (hmw : ∀ e ∈ st.sc.mwQ, e = none ∨ ∃ n, e = some (.os n))
    (hu : ∀ e ∈ st.sc.unlinkQ, e = none ∨ ∃ n, e = some (.os n))
    (hr : ∀ e ∈ st.sc.renameQ, e = none) :
    ∃ st', rm_rf false cwd p0 max_retries trash false st = (.ok true, st') ∧
      lookupFS st'.fs (abspath cwd p0) = none ∧
      (st'.fs = erasePath st.fs (abspath cwd p0) ∨
        lookupFS st'.fs (trashName (abspath cwd p0)) = some .file) := by
  have hdir : isdirFS st.fs (abspath cwd p0) = false := by simp [isdirFS, hfile]
  have hlex : lexistsFS st.fs (abspath cwd p0) = true := by simp [lexistsFS, hfile]
  have htne := trashName_ne (abspath cwd p0) hne
  have hbody : rm_rf false cwd p0 max_retries trash false st
      = rm_rf_finally (abspath cwd p0) false
          (unlink_or_rename_to_trash false (abspath cwd p0) st) := by
    unfold rm_rf
    congr 1
    simp only [rm_rf_body, bind_def, M.bind, getFs]
    simp [hdir, hlex]
  rw [hbody]
  simp only [unlink_or_rename_to_trash, bind_def, M.bind, emit]
  rw [attemptOs_apply, bindApplyM]
  rw [make_writable_exists (abspath cwd p0)
      { st with tr := st.tr ++ [.callUnlinkTrashEv (abspath cwd p0)] } hlex]
  rcases hh : st.sc.mwQ.head?.getD none with _ | e
  · -- make_writable succeeds
    simp only [hh]
    rw [unlink_eq]
    rcases hh2 : st.sc.unlinkQ.head?.getD none with _ | e2
    · -- unlink succeeds: direct deletion
      simp only [hh2, hfile]
      have habs : lookupFS (erasePath st.fs (abspath cwd p0)) (abspath cwd p0) = none := by
        rw [lookupFS_erasePath, if_pos rfl]
      rw [rm_rf_finally_ok_absent _ _ habs]
      exact ⟨_, rfl, habs, Or.inl rfl⟩
    · -- unlink faulted with an OS error: rename fallback
      obtain ⟨n, rfl⟩ := head_getD_os _ hu e2 hh2
      simp only [hh2, hfile]
      simp only [Bool.false_eq_true, if_false]
      rw [rename_eq]
      rw [head_getD_none _ hr]
      simp only [hfile]
      have habs : lookupFS
          (insertPath (erasePath (erasePath st.fs (trashName (abspath cwd p0)))
            (abspath cwd p0)) (trashName (abspath cwd p0)) .file)
          (abspath cwd p0) = none := by
        rw [lookupFS_insertPath, if_neg htne, lookupFS_erasePath, if_pos rfl]
      rw [rm_rf_finally_ok_absent _ _ habs]
      refine ⟨_, rfl, habs, Or.inr ?_⟩
      rw [lookupFS_insertPath, if_pos rfl]
  · -- make_writable faulted with an OS error: rename fallback
    obtain ⟨n, rfl⟩ := head_getD_os _ hmw e hh
    simp only [hh]
    simp only [Bool.false_eq_true, if_false]
    rw [rename_eq]
    rw [head_getD_none _ hr]
    simp only [hfile]
    have habs : lookupFS
        (insertPath (erasePath (erasePath st.fs (trashName (abspath cwd p0)))
          (abspath cwd p0)) (trashName (abspath cwd p0)) .file)
        (abspath cwd p0) = none := by
      rw [lookupFS_insertPath, if_neg htne, lookupFS_erasePath, if_pos rfl]
    rw [rm_rf_finally_ok_absent _ _ habs]
    refine ⟨_, rfl, habs, Or.inr ?_⟩
    rw [lookupFS_insertPath, if_pos rfl]

/-- Witness for `rm_rf_regular_file`: the lone regular file `/x` with an
empty fault script. -/
theorem rm_rf_regular_file_witness :
    ∃ st', rm_rf false [] ⟨true, ["x"]⟩ 5 true false
        ⟨[(["x"], .file)], Script.empty, []⟩ = (.ok true, st') ∧
      lookupFS st'.fs ["x"] = none ∧
      (st'.fs = erasePath [(["x"], .file)] ["x"] ∨
        lookupFS st'.fs (trashName ["x"]) = some .file) :=
  rm_rf_regular_file [] ⟨true, ["x"]⟩ 5 true ⟨[(["x"], .file)], Script.empty, []⟩
    rfl (by simp [abspath]) (by simp [Script.empty]) (by simp [Script.empty])
    (by simp [Script.empty])

theorem removeParentsGo_step (a : String) (as : Path) (st : St)
    (hd : lookupFS st.fs (a :: as) = some .dir)
    (he : listdirFS st.fs (a :: as) = [])
    (hq : ∀ e ∈ st.sc.rmdirQ, e = none) :
    removeParentsGo (a :: as) st
      = removeParentsGo (a :: as).dropLast
          ⟨erasePath st.fs (a :: as), { st.sc with rmdirQ := st.sc.rmdirQ.tail },
           st.tr ++ [Event.rmdirEv (a :: as)]⟩ := by
  have hdir : isdirFS st.fs (a :: as) = true := by simp [isdirFS, hd]
  have hgo : removeParentsGo (a :: as) st = removeParentsGoN (as.length + 1) (a :: as) st := rfl
  rw [hgo, removeParentsGoN_cons_bind as.length (a :: as) st hdir he,
    rmdir_ok _ _ (by simp) hd he hq]
  have hlen : (a :: as).dropLast.length = as.length := by simp
  unfold removeParentsGo
  rw [hlen]

theorem removeParentsGo_stop_wrap (q : Path) (st : St)
    (h : ¬(isdirFS st.fs q = true ∧ listdirFS st.fs q = [])) :
    removeParentsGo q st = (.ok (), st) :=
  removeParentsGo_stop q st h

/-- **C8.** `remove_empty_parent_paths` walks upward from the path's
parent, removing each ancestor directory while it exists and is empty, and
stops at the first non-empty or missing ancestor, leaving everything that
is not an ancestor of the deleted path unchanged.  Conjuncts: (1) frame —
any path that is not a prefix of the parent keeps its entry, under every
fault script; (2) the while-step — an existing empty ancestor directory is
removed by `rmdir` and the loop moves to its own parent (fault-free rmdir
queue); (3) the stop case — a non-directory, non-existing or non-empty
ancestor ends the loop with no state change; (4) the end-to-end example
from the spec: `rm_rf` with `clean_empty_parents` on `/a/b/c/target`
removes the emptied `/a/b/c` and `/a/b` but leaves the non-empty `/a` and
its other content `/a/keep`, returning `true`. -/
theorem remove_empty_parent_paths_spec :
    (∀ (p : Path) (st : St) (r : Path), ¬ (r <+: p.dropLast) →
      lookupFS ((remove_empty_parent_paths p st).2.fs) r = lookupFS st.fs r) ∧
    (∀ (a : String) (as : Path) (st : St),
      lookupFS st.fs (a :: as) = some .dir → listdirFS st.fs (a :: as) = [] →
      (∀ e ∈ st.sc.rmdirQ, e = none) →
      removeParentsGo (a :: as) st
        = removeParentsGo (a :: as).dropLast
            ⟨erasePath st.fs (a :: as), { st.sc with rmdirQ := st.sc.rmdirQ.tail },
             st.tr ++ [Event.rmdirEv (a :: as)]⟩) ∧
    (∀ (q : Path) (st : St), ¬(isdirFS st.fs q = true ∧ listdirFS st.fs q = []) →
      removeParentsGo q st = (.ok (), st)) ∧
    (rm_rf false [] ⟨true, ["a", "b", "c", "target"]⟩ 5 true true
        ⟨[(["a"], .dir), (["a", "keep"], .file), (["a", "b"], .dir),
          (["a", "b", "c"], .dir), (["a", "b", "c", "target"], .file)],
         Script.empty, []⟩
      = (.ok true,
         ⟨[(["a"], .dir), (["a", "keep"], .file)], Script.empty,
          [.callUnlinkTrashEv ["a", "b", "c", "target"],
           .mwEv ["a", "b", "c", "target"], .unlinkEv ["a", "b", "c", "target"],
           .rmdirEv ["a", "b", "c"], .rmdirEv ["a", "b"]]⟩)) :=
  ⟨fun p st r hr => removeParentsGo_frame p.dropLast st r hr,
   removeParentsGo_step,
   removeParentsGo_stop_wrap,
   rfl⟩

/-- Witness for `remove_empty_parent_paths_spec`: its three universally
quantified conjuncts applied at concrete states — an unrelated file `/z`
survives pruning from `/a/b`; the empty directory `/a` is removed and the
loop moves to the root; a non-empty directory stops the loop. -/
theorem remove_empty_parent_paths_spec_witness :
    (lookupFS ((remove_empty_parent_paths ["a", "b"]
        ⟨[(["z"], .file)], Script.empty, []⟩).2.fs) ["z"]
      = lookupFS [(["z"], .file)] ["z"]) ∧
    (removeParentsGo ["a"] ⟨[(["a"], .dir)], Script.empty, []⟩
      = removeParentsGo (["a"]).dropLast
          ⟨erasePath [(["a"], .dir)] ["a"],
           { Script.empty with rmdirQ := Script.empty.rmdirQ.tail },
           [] ++ [Event.rmdirEv ["a"]]⟩) ∧
    (removeParentsGo ["a"] ⟨[(["a"], .dir), (["a", "x"], .file)], Script.empty, []⟩
      = (.ok (), ⟨[(["a"], .dir), (["a", "x"], .file)], Script.empty, []⟩)) :=
  ⟨remove_empty_parent_paths_spec.1 ["a", "b"] ⟨[(["z"], .file)], Script.empty, []⟩
      ["z"] (by decide),
   remove_empty_parent_paths_spec.2.1 "a" [] ⟨[(["a"], .dir)], Script.empty, []⟩
      rfl rfl (by simp [Script.empty]),
   remove_empty_parent_paths_spec.2.2.1 ["a"]
      ⟨[(["a"], .dir), (["a", "x"], .file)], Script.empty, []⟩ (by decide)⟩

theorem M.pure_bind {α β : Type} (a : α) (f : α → M β) : M.bind (M.pure a) f = f a := rfl

theorem M.bind_assoc {α β γ : Type} (m : M α) (f : α → M β) (g : β → M γ) :
    M.bind (M.bind m f) g = M.bind m (fun a => M.bind (f a) g) := by
  funext st
  rcases hm : m st with ⟨res, st1⟩
  cases res <;> simp [M.bind, hm]

theorem mIter_cons {α : Type} (x : α) (xs : List α) (f : α → M Unit) :
    mIter (x :: xs) f = M.bind (f x) (fun _ => mIter xs f) := rfl

theorem mIter_congr {α : Type} (xs : List α) (f g : α → M Unit)
    (h : ∀ x ∈ xs, f x = g x) : mIter xs f = mIter xs g := by
  induction xs with
  | nil => rfl
  | cons x xs ih =>
    rw [mIter_cons, mIter_cons, h x (by simp), ih (fun y hy => h y (by simp [hy]))]

theorem mIter_filter {α : Type} (xs : List α) (p : α → Bool) (g : α → M Unit) :
    mIter xs (fun b => if p b then g b else M.pure ()) = mIter (xs.filter p) g := by
  induction xs with
  | nil => rfl
  | cons x xs ih =>
    cases hp : p x with
    | true =>
      rw [mIter_cons, List.filter_cons_of_pos hp, mIter_cons]
      simp only [hp, if_true]
      exact congrArg _ (funext fun _ => ih)
    | false =>
      rw [mIter_cons, List.filter_cons_of_neg (by simp [hp])]
      simp only [hp, Bool.false_eq_true, if_false, M.pure_bind]
      exact ih

theorem mIter_append {α : Type} (xs ys : List α) (f : α → M Unit) :
    mIter (xs ++ ys) f = M.bind (mIter xs f) (fun _ => mIter ys f) := by
  induction xs with
  | nil => rw [List.nil_append]; rfl
  | cons x xs ih =>
    rw [List.cons_append, mIter_cons, mIter_cons, ih, M.bind_assoc]

theorem mIter_flatten {α : Type} (ls : List (List α)) (f : α → M Unit) :
    mIter ls.flatten f = mIter ls (fun l => mIter l f) := by
  induction ls with
  | nil => rfl
  | cons l ls ih =>
    rw [List.flatten_cons, mIter_append, ih, mIter_cons]

theorem mIter_map {α β : Type} (xs : List α) (h : α → β) (f : β → M Unit) :
    mIter (xs.map h) f = mIter xs (fun x => f (h x)) := by
  induction xs with
  | nil => rfl
  | cons x xs ih =>
    rw [List.map_cons, mIter_cons, mIter_cons, ih]

theorem delete_trash_eq (root : Path) (st : St) :
    delete_trash root st = sweepRun (sweepTargets st.fs root) st := by
  have h1 : delete_trash root st = mIter (walkTriples st.fs root false) sweepTriple st := by
    unfold delete_trash
    rw [bind_apply]
    simp [getFs]
  have h2 : sweepRun (sweepTargets st.fs root)
      = mIter (walkTriples st.fs root false) sweepTriple := by
    unfold sweepRun sweepTargets
    rw [mIter_flatten, mIter_map]
    refine mIter_congr _ _ _ (fun t _ => ?_)
    rw [mIter_map, ← mIter_filter]
    rfl
  rw [h1, h2]

theorem erasePath_of_none (fs : FS) (q : Path) (h : lookupFS fs q = none) :
    erasePath fs q = fs := by
  induction fs with
  | nil => rfl
  | cons e rest ih =>
    rcases e with ⟨k, v⟩
    by_cases hk : k = q
    · subst hk
      simp [lookupFS] at h
    · simp only [erasePath, if_neg hk]
      rw [ih]
      rw [lookupFS] at h
      simpa [hk] using h

theorem allNone_tail (l : List (Option Err)) (h : ∀ e ∈ l, e = none) :
    ∀ e ∈ l.tail, e = none := by
  cases l with
  | nil => simp
  | cons e0 rest =>
    intro e he
    simp only [List.tail_cons] at he
    exact h e (by simp [he])

theorem osOnly_tail (l : List (Option Err))
    (h : ∀ e ∈ l, e = none ∨ ∃ n, e = some (.os n)) :
    ∀ e ∈ l.tail, e = none ∨ ∃ n, e = some (.os n) := by
  cases l with
  | nil => simp
  | cons e0 rest =>
    intro e he
    simp only [List.tail_cons] at he
    exact h e (by simp [he])

theorem sweepUnlink_exact (q : Path) (st : St)
    (hall : ∀ e ∈ st.sc.unlinkQ, e = none)
    (hnd : lookupFS st.fs q ≠ some .dir) :
    (sweepUnlink q st).1 = .ok () ∧
    (sweepUnlink q st).2.fs = erasePath st.fs q ∧
    (sweepUnlink q st).2.sc.unlinkQ = st.sc.unlinkQ.tail := by
  unfold sweepUnlink
  rw [attemptOs_apply, unlink_eq, head_getD_none _ hall]
  rcases hl : lookupFS st.fs q with _ | k
  · exact ⟨rfl, (erasePath_of_none _ _ hl).symm, rfl⟩
  · cases k with
    | dir => exact absurd hl hnd
    | file => exact ⟨rfl, rfl, rfl⟩
    | link b => exact ⟨rfl, rfl, rfl⟩

theorem sweepUnlink_os (q : Path) (st : St)
    (hos : ∀ e ∈ st.sc.unlinkQ, e = none ∨ ∃ n, e = some (.os n)) :
    (sweepUnlink q st).1 = .ok () ∧
    (sweepUnlink q st).2.sc.unlinkQ = st.sc.unlinkQ.tail ∧
    ((sweepUnlink q st).2.fs = st.fs ∨ (sweepUnlink q st).2.fs = erasePath st.fs q) := by
  unfold sweepUnlink
  rw [attemptOs_apply, unlink_eq]
  rcases hh : st.sc.unlinkQ.head?.getD none with _ | e
  · rcases hl : lookupFS st.fs q with _ | k
    · exact ⟨rfl, rfl, Or.inl rfl⟩
    · cases k with
      | dir => exact ⟨rfl, rfl, Or.inl rfl⟩
      | file => exact ⟨rfl, rfl, Or.inr rfl⟩
      | link b => exact ⟨rfl, rfl, Or.inr rfl⟩
  · obtain ⟨n, rfl⟩ := head_getD_os _ hos e hh
    exact ⟨rfl, rfl, Or.inl rfl⟩

theorem sweepRun_exact : ∀ (ts : List Path) (st : St),
    (∀ e ∈ st.sc.unlinkQ, e = none) →
    (∀ q ∈ ts, lookupFS st.fs q ≠ some .dir) →
    (sweepRun ts st).1 = .ok () ∧
    ∀ r, lookupFS ((sweepRun ts st).2.fs) r
      = if r ∈ ts then none else lookupFS st.fs r := by
  intro ts
  induction ts with
  | nil =>
    intro st _ _
    exact ⟨rfl, fun r => by simp [sweepRun, mIter, M.pure]⟩
  | cons q ts ih =>
    intro st hall hnd
    obtain ⟨h1, h2, h3⟩ := sweepUnlink_exact q st hall (hnd q (by simp))
    rcases hsw : sweepUnlink q st with ⟨res, st1⟩
    rw [hsw] at h1 h2 h3
    simp only at h1 h2 h3
    subst h1
    have hrun : sweepRun (q :: ts) st = sweepRun ts st1 := by
      show mIter (q :: ts) sweepUnlink st = _
      rw [mIter_cons, bindApplyM, hsw]
      rfl
    have hall1 : ∀ e ∈ st1.sc.unlinkQ, e = none := by
      rw [h3]
      exact allNone_tail _ hall
    have hnd1 : ∀ q' ∈ ts, lookupFS st1.fs q' ≠ some .dir := by
      intro q' hq'
      rw [h2, lookupFS_erasePath]
      by_cases he : q' = q
      · simp [he]
      · simpa [he] using hnd q' (by simp [hq'])
    obtain ⟨ih1, ih2⟩ := ih st1 hall1 hnd1
    rw [hrun]
    refine ⟨ih1, fun r => ?_⟩
    rw [ih2 r, h2, lookupFS_erasePath]
    by_cases hrts : r ∈ ts
    · simp [hrts]
    · by_cases hrq : r = q
      · simp [hrts, hrq]
      · simp [hrts, hrq]

theorem sweepRun_os : ∀ (ts : List Path) (st : St),
    (∀ e ∈ st.sc.unlinkQ, e = none ∨ ∃ n, e = some (.os n)) →
    (sweepRun ts st).1 = .ok () ∧
    ∀ r, r ∉ ts → lookupFS ((sweepRun ts st).2.fs) r = lookupFS st.fs r := by
  intro ts
  induction ts with
  | nil =>
    intro st _
    exact ⟨rfl, fun r _ => by simp [sweepRun, mIter, M.pure]⟩
  | cons q ts ih =>
    intro st hos
    obtain ⟨h1, h3, h2⟩ := sweepUnlink_os q st hos
    rcases hsw : sweepUnlink q st with ⟨res, st1⟩
    rw [hsw] at h1 h2 h3
    simp only at h1 h2 h3
    subst h1
    have hrun : sweepRun (q :: ts) st = sweepRun ts st1 := by
      show mIter (q :: ts) sweepUnlink st = _
      rw [mIter_cons, bindApplyM, hsw]
      rfl
    have hos1 : ∀ e ∈ st1.sc.unlinkQ, e = none ∨ ∃ n, e = some (.os n) := by
      rw [h3]
      exact osOnly_tail _ hos
    obtain ⟨ih1, ih2⟩ := ih st1 hos1
    rw [hrun]
    refine ⟨ih1, fun r hr => ?_⟩
    have hrts : r ∉ ts := fun h => hr (by simp [h])
    have hrq : r ≠ q := fun h => hr (by simp [h])
    rw [ih2 r hrts]
    rcases h2 with h2 | h2
    · rw [h2]
    · rw [h2, lookupFS_erasePath, if_neg hrq]

theorem mem_dedupAux : ∀ (l seen : List Path) (q : Path),
    q ∈ dedupAux l seen ↔ q ∈ l ∧ q ∉ seen := by
  intro l
  induction l with
  | nil => simp [dedupAux]
  | cons p ps ih =>
    intro seen q
    by_cases hc : seen.contains p = true
    · have hp : p ∈ seen := by simpa using hc
      rw [dedupAux, if_pos hc, ih]
      constructor
      · rintro ⟨h1, h2⟩
        exact ⟨by simp [h1], h2⟩
      · rintro ⟨h1, h2⟩
        rcases List.mem_cons.mp h1 with rfl | h1
        · exact absurd hp h2
        · exact ⟨h1, h2⟩
    · have hp : p ∉ seen := by simpa using hc
      rw [dedupAux, if_neg hc]
      constructor
      · intro hmem
        rcases List.mem_cons.mp hmem with rfl | hmem
        · exact ⟨by simp, hp⟩
        · obtain ⟨h1, h2⟩ := (ih _ _).mp hmem
          refine ⟨by simp [h1], fun hs => h2 (by simp [hs])⟩
      · rintro ⟨h1, h2⟩
        rcases List.mem_cons.mp h1 with rfl | h1
        · simp
        · by_cases hq : q = p
          · simp [hq]
          · refine List.mem_cons.mpr (Or.inr ((ih _ _).mpr ⟨h1, ?_⟩))
            simp [hq, h2]

theorem lookupFS_ne_none_iff (fs : FS) (q : Path) :
    lookupFS fs q ≠ none ↔ q ∈ fs.map Prod.fst := by
  induction fs with
  | nil => simp [lookupFS]
  | cons e rest ih =>
    rcases e with ⟨k, v⟩
    by_cases hk : k = q
    · subst hk
      rw [lookupFS]
      constructor
      · intro _
        rw [List.map_cons]
        exact List.mem_cons_self _ _
      · intro _
        rw [if_pos rfl]
        exact Option.some_ne_none v
    · rw [lookupFS]
      simp only [if_neg hk, List.map_cons, List.mem_cons]
      rw [ih]
      constructor
      · exact Or.inr
      · rintro (rfl | h)
        · exact absurd rfl hk
        · exact h

theorem mem_pathKeys (fs : FS) (q : Path) :
    q ∈ pathKeys fs ↔ lookupFS fs q ≠ none := by
  rw [pathKeys, dedupPaths, mem_dedupAux, lookupFS_ne_none_iff]
  simp only [List.not_mem_nil, not_false_eq_true, and_true]

theorem lexistsFS_eq_true_iff (fs : FS) (p : Path) :
    lexistsFS fs p = true ↔ lookupFS fs p ≠ none := by
  cases h : lookupFS fs p <;> simp [lexistsFS, h]

theorem le_foldr_max (ps : List Path) (q : Path) (h : q ∈ ps) :
    q.length ≤ ps.foldr (fun p m => max p.length m) 0 := by
  induction ps with
  | nil => simp at h
  | cons p ps ih =>
    rcases List.mem_cons.mp h with rfl | h
    · simp [List.foldr_cons]
    · calc q.length ≤ ps.foldr (fun p m => max p.length m) 0 := ih h
        _ ≤ (p :: ps).foldr (fun p m => max p.length m) 0 := by
            simp [List.foldr_cons]

theorem mem_orderByDepth (b : Bool) (ps : List Path) (q : Path) :
    q ∈ orderByDepth b ps ↔ q ∈ ps := by
  unfold orderByDepth
  cases b <;>
    simp only [if_true, if_false, Bool.false_eq_true, List.mem_flatten,
      List.mem_reverse, List.mem_map, List.mem_range, List.mem_filter] <;>
    constructor
  · rintro ⟨l, ⟨d, _, rfl⟩, hq⟩
    exact (List.mem_filter.mp hq).1
  · intro hq
    refine ⟨ps.filter (fun p => p.length == q.length), ⟨q.length, ?_, rfl⟩,
      List.mem_filter.mpr ⟨hq, by simp⟩⟩
    exact Nat.lt_succ_of_le (le_foldr_max ps q hq)
  · rintro ⟨l, ⟨d, _, rfl⟩, hq⟩
    exact (List.mem_filter.mp hq).1
  · intro hq
    refine ⟨ps.filter (fun p => p.length == q.length), ⟨q.length, ?_, rfl⟩,
      List.mem_filter.mpr ⟨hq, by simp⟩⟩
    exact Nat.lt_succ_of_le (le_foldr_max ps q hq)

theorem dropLast_append_getLastD (p : Path) (h : p ≠ []) :
    p.dropLast ++ [p.getLastD ""] = p := by
  rcases List.eq_nil_or_concat p with rfl | ⟨l, a, rfl⟩
  · exact absurd rfl h
  · simp only [List.concat_eq_append, List.dropLast_concat, List.getLastD_concat]

theorem mem_childNames (fs : FS) (v : Path) (side : Bool) (b : String) :
    b ∈ childNames fs v side ↔
      ∃ q, lookupFS fs q ≠ none ∧ q.dropLast = v ∧ q ≠ v ∧
        isdirFS fs q = side ∧ q.getLastD "" = b := by
  unfold childNames
  rw [List.mem_filterMap]
  constructor
  · rintro ⟨q, hq, hf⟩
    by_cases hc : (q.dropLast == v && !(q == v) && (isdirFS fs q == side)) = true
    · rw [if_pos hc] at hf
      simp only [Bool.and_eq_true, beq_iff_eq, Bool.not_eq_eq_eq_not, Bool.not_true,
        beq_eq_false_iff_ne] at hc
      refine ⟨q, (mem_pathKeys fs q).mp hq, hc.1.1, hc.1.2, hc.2, by injection hf⟩
    · rw [if_neg hc] at hf
      cases hf
  · rintro ⟨q, h1, h2, h3, h4, h5⟩
    refine ⟨q, (mem_pathKeys fs q).mpr h1, ?_⟩
    rw [if_pos ?_]
    · rw [h5]
    · simp only [Bool.and_eq_true, beq_iff_eq, Bool.not_eq_eq_eq_not, Bool.not_true,
        beq_eq_false_iff_ne]
      exact ⟨⟨h2, h3⟩, h4⟩

theorem visitedDir_lookup (fs : FS) (root v : Path)
    (h : visitedDir fs root v = true) : lookupFS fs v = some .dir := by
  unfold visitedDir at h
  rw [Bool.and_eq_true] at h
  have hle : root.length ≤ v.length := by
    have := List.IsPrefix.length_le (by simpa using h.1)
    exact this
  have := (List.all_eq_true.mp h.2) v.length (by
    rw [List.mem_range]
    omega)
  rcases (Bool.or_eq_true _ _).mp this with h1 | h2
  · exfalso
    have : v.length < root.length := of_decide_eq_true h1
    omega
  · have := of_decide_eq_true h2
    rwa [List.take_length] at this

theorem ne_dropLast_self (q : Path) (h : q ≠ []) : q ≠ q.dropLast := by
  intro heq
  have h1 : q.length = q.dropLast.length := congrArg List.length heq
  rw [List.length_dropLast] at h1
  have h2 : q.length ≠ 0 := fun h0 => h (List.eq_nil_of_length_eq_zero h0)
  omega

theorem mem_sweepTargets (fs : FS) (root q : Path) :
    q ∈ sweepTargets fs root ↔ sweptByTrash fs root q = true := by
  unfold sweepTargets walkTriples
  rw [List.mem_flatten]
  constructor
  · rintro ⟨l, hl, hq⟩
    rw [List.mem_map] at hl
    obtain ⟨t, ht, rfl⟩ := hl
    rw [List.mem_map] at hq
    obtain ⟨b, hb, rfl⟩ := hq
    rw [List.mem_filter] at hb
    obtain ⟨hbmem, hbmatch⟩ := hb
    rw [List.mem_map] at ht
    obtain ⟨v, hv, rfl⟩ := ht
    rw [mem_orderByDepth] at hv
    unfold walkDirs at hv
    rw [List.mem_filter] at hv
    obtain ⟨_, hvvis⟩ := hv
    have hbmem2 : b ∈ childNames fs v false := hbmem
    rw [mem_childNames] at hbmem2
    obtain ⟨q', hq1, hq2, hq3, hq4, hq5⟩ := hbmem2
    have hqne : q' ≠ [] := by
      intro h0
      apply hq3
      rw [h0, ← hq2, h0]
      rfl
    have hdecomp : q' = v ++ [b] := by
      rw [← hq2, ← hq5]
      exact (dropLast_append_getLastD q' hqne).symm
    have ht1 : (walkTriple fs v).1 = v := rfl
    rw [ht1]
    unfold sweptByTrash
    rw [← hdecomp]
    have h1 : lexistsFS fs q' = true := (lexistsFS_eq_true_iff fs q').mpr hq1
    have h5 : trashMatch (q'.getLastD "") = true := by rw [hq5]; exact hbmatch
    simp only [h1, hq4, hq2, hvvis, h5, Bool.not_false, Bool.and_true, Bool.true_and,
      Bool.and_self, decide_eq_true_eq]
    simpa using hqne
  · intro hsw
    unfold sweptByTrash at hsw
    simp only [Bool.and_eq_true, Bool.not_eq_eq_eq_not, Bool.not_true, decide_eq_true_eq] at hsw
    obtain ⟨⟨⟨⟨hex, hnd⟩, hqne⟩, hvis⟩, hmatch⟩ := hsw
    have hlook : lookupFS fs q ≠ none := (lexistsFS_eq_true_iff fs q).mp hex
    have hvdir : lookupFS fs q.dropLast = some .dir := visitedDir_lookup fs root _ hvis
    refine ⟨((walkTriple fs q.dropLast).2.2.filter trashMatch).map
        (fun b => (walkTriple fs q.dropLast).1 ++ [b]), ?_, ?_⟩
    · rw [List.mem_map]
      refine ⟨walkTriple fs q.dropLast, ?_, rfl⟩
      rw [List.mem_map]
      refine ⟨q.dropLast, ?_, rfl⟩
      rw [mem_orderByDepth]
      unfold walkDirs
      rw [List.mem_filter]
      exact ⟨(mem_pathKeys fs _).mpr (by rw [hvdir]; exact Option.some_ne_none _), hvis⟩
    · rw [List.mem_map]
      refine ⟨q.getLastD "", ?_, ?_⟩
      · rw [List.mem_filter]
        refine ⟨?_, hmatch⟩
        have : (walkTriple fs q.dropLast).2.2 = childNames fs q.dropLast false := rfl
        rw [this, mem_childNames]
        exact ⟨q, hlook, rfl, ne_dropLast_self q hqne, hnd, rfl⟩
      · have : (walkTriple fs q.dropLast).1 = q.dropLast := rfl
        rw [this]
        exact dropLast_append_getLastD q hqne

theorem isdirFS_of_dir (fs : FS) (q : Path) (h : lookupFS fs q = some .dir) :
    isdirFS fs q = true := by
  simp [isdirFS, h]

set_option maxHeartbeats 2000000 in
/-- **C7.** `delete_trash root` walks `root` recursively and unlinks
exactly the walk-reachable non-directory entries whose basename ends in
`.trash`: (1) with no faults, the resulting filesystem is the original
with precisely the swept entries removed and every other entry (including
non-matching files in nested subdirectories, and directories even when
named `*.trash`) unchanged; (2) under arbitrary OS-level unlink faults the
sweep still never raises — each per-file failure is logged and skipped —
and entries it does not target are still untouched; (3) concretely, when
the first unlink fails with EACCES the sweep continues: the second trash
file is still removed and the call still returns successfully. -/
theorem delete_trash_spec :
    (∀ (root : Path) (st : St), (∀ e ∈ st.sc.unlinkQ, e = none) →
      (delete_trash root st).1 = .ok () ∧
      ∀ q, lookupFS ((delete_trash root st).2.fs) q
        = if sweptByTrash st.fs root q = true then none else lookupFS st.fs q) ∧
    (∀ (root : Path) (st : St),
      (∀ e ∈ st.sc.unlinkQ, e = none ∨ ∃ n, e = some (.os n)) →
      (delete_trash root st).1 = .ok () ∧
      ∀ q, sweptByTrash st.fs root q = false →
        lookupFS ((delete_trash root st).2.fs) q = lookupFS st.fs q) ∧
    (delete_trash ["r"]
        ⟨[(["r"], .dir), (["r", "a.trash"], .file), (["r", "sub"], .dir),
          (["r", "sub", "b.trash"], .file)],
         { Script.empty with unlinkQ := [some (.os EACCES)] }, []⟩
      = (.ok (),
         ⟨[(["r"], .dir), (["r", "a.trash"], .file), (["r", "sub"], .dir)],
          Script.empty,
          [.unlinkEv ["r", "a.trash"], .logUnlinkFailEv ["r", "a.trash"],
           .unlinkEv ["r", "sub", "b.trash"]]⟩)) := by
  refine ⟨?_, ?_, rfl⟩
  · intro root st hall
    rw [delete_trash_eq]
    have hnd : ∀ q ∈ sweepTargets st.fs root, lookupFS st.fs q ≠ some .dir := by
      intro q hq hdirq
      have hsw := (mem_sweepTargets st.fs root q).mp hq
      unfold sweptByTrash at hsw
      simp only [Bool.and_eq_true, Bool.not_eq_eq_eq_not, Bool.not_true] at hsw
      have : isdirFS st.fs q = true := isdirFS_of_dir _ _ hdirq
      rw [this] at hsw
      exact Bool.noConfusion hsw.1.1.1.2
    obtain ⟨h1, h2⟩ := sweepRun_exact (sweepTargets st.fs root) st hall hnd
    refine ⟨h1, fun q => ?_⟩
    rw [h2 q]
    by_cases hmem : q ∈ sweepTargets st.fs root
    · rw [if_pos hmem, if_pos ((mem_sweepTargets _ _ _).mp hmem)]
    · rw [if_neg hmem, if_neg (fun h => hmem ((mem_sweepTargets _ _ _).mpr h))]
  · intro root st hos
    rw [delete_trash_eq]
    obtain ⟨h1, h2⟩ := sweepRun_os (sweepTargets st.fs root) st hos
    refine ⟨h1, fun q hq => h2 q ?_⟩
    intro hmem
    have hx := (mem_sweepTargets st.fs root q).mp hmem
    rw [hx] at hq
    exact Bool.noConfusion hq

set_option maxHeartbeats 2000000 in
/-- Witness for `delete_trash_spec`: sweeping `/r` containing the trash
marker `/r/x.trash` and the ordinary file `/r/keep` with no faults removes
exactly the marker. -/
theorem delete_trash_spec_witness :
    (delete_trash ["r"]
        ⟨[(["r"], .dir), (["r", "x.trash"], .file), (["r", "keep"], .file)],
         Script.empty, []⟩).1 = .ok () ∧
    lookupFS ((delete_trash ["r"]
        ⟨[(["r"], .dir), (["r", "x.trash"], .file), (["r", "keep"], .file)],
         Script.empty, []⟩).2.fs) ["r", "x.trash"] = none ∧
    lookupFS ((delete_trash ["r"]
        ⟨[(["r"], .dir), (["r", "x.trash"], .file), (["r", "keep"], .file)],
         Script.empty, []⟩).2.fs) ["r", "keep"] = some .file := by
  obtain ⟨h1, h2⟩ := delete_trash_spec.1 ["r"]
    ⟨[(["r"], .dir), (["r", "x.trash"], .file), (["r", "keep"], .file)],
     Script.empty, []⟩ (by simp [Script.empty])
  exact ⟨h1, (h2 ["r", "x.trash"]).trans rfl, (h2 ["r", "keep"]).trans rfl⟩
